import Mathlib

/-!
Verification of the streaming tool-call agent orchestrator of the
lesson-builder application.

The JavaScript sources are shallowly embedded: JS strings become `String` /
`List Char`, JSON values become the inductive `JVal`, `undefined` becomes
`none : Option JVal`, thrown exceptions become `Except String`, and async
control flow (awaited batches, sequential awaited loops, cooperative
cancellation checks) becomes explicit state passing with a check-indexed
cancellation signal.  Each definition names the source function it embeds.
-/

/-- A JSON value as produced by `JSON.parse`.  Numbers keep their source
literal (the executor only ever needs integer-valued indexes, extracted by
`numAsInt`). -/
inductive JVal where
  | jnull
  | jbool (b : Bool)
  | jnum (lit : String)
  | jstr (s : String)
  | jarr (elems : List JVal)
  | jobj (fields : List (String × JVal))

/-- JSON whitespace (RFC 8259): space, tab, line feed, carriage return. -/
def isJsonWs (c : Char) : Bool :=
  c = ' ' ∨ c = '\t' ∨ c = '\n' ∨ c = '\r'

def skipWs (l : List Char) : List Char :=
  l.dropWhile isJsonWs

def hexVal (c : Char) : Option Nat :=
  if '0' ≤ c ∧ c ≤ '9' then some (c.toNat - '0'.toNat)
  else if 'a' ≤ c ∧ c ≤ 'f' then some (c.toNat - 'a'.toNat + 10)
  else if 'A' ≤ c ∧ c ≤ 'F' then some (c.toNat - 'A'.toNat + 10)
  else none

/-- String body of a JSON string literal, after the opening quote.
Surrogate pairs are simplified: each \uXXXX escape becomes one scalar
(or NUL when XXXX is not a valid scalar value). -/
def parseJStr : Nat → List Char → List Char → Option (String × List Char)
  | 0, _, _ => none
  | _ + 1, [], _ => none
  | fuel + 1, c :: rest, acc =>
    if c = '"' then some (String.mk acc.reverse, rest)
    else if c = '\\' then
      match rest with
      | [] => none
      | e :: rest2 =>
        if e = '"' then parseJStr fuel rest2 ('"' :: acc)
        else if e = '\\' then parseJStr fuel rest2 ('\\' :: acc)
        else if e = '/' then parseJStr fuel rest2 ('/' :: acc)
        else if e = 'b' then parseJStr fuel rest2 ('\x08' :: acc)
        else if e = 'f' then parseJStr fuel rest2 ('\x0c' :: acc)
        else if e = 'n' then parseJStr fuel rest2 ('\n' :: acc)
        else if e = 'r' then parseJStr fuel rest2 ('\r' :: acc)
        else if e = 't' then parseJStr fuel rest2 ('\t' :: acc)
        else if e = 'u' then
          match rest2 with
          | h1 :: h2 :: h3 :: h4 :: rest3 =>
            match hexVal h1, hexVal h2, hexVal h3, hexVal h4 with
            | some a, some b, some c3, some d =>
              parseJStr fuel rest3 (Char.ofNat (((a * 16 + b) * 16 + c3) * 16 + d) :: acc)
            | _, _, _, _ => none
          | _ => none
        else none
    else if c.toNat < 32 then none
    else parseJStr fuel rest (c :: acc)

/-- JSON number literal: `-?(0|[1-9][0-9]*)(\.[0-9]+)?([eE][+-]?[0-9]+)?`.
Returns the literal text and the remaining input. -/
def parseJNum (l : List Char) : Option (String × List Char) :=
  let (sign, l1) := match l with
    | '-' :: rest => (['-'], rest)
    | _ => (([] : List Char), l)
  let ip := l1.takeWhile Char.isDigit
  let l2 := l1.dropWhile Char.isDigit
  if ip = [] then none
  else if ip.length > 1 ∧ ip.head? = some '0' then none
  else
    let (fr, l3) := match l2 with
      | '.' :: rest =>
        let ds := rest.takeWhile Char.isDigit
        if ds = [] then (none, l2) else (some ('.' :: ds), rest.dropWhile Char.isDigit)
      | _ => (none, l2)
    match fr, l3 with
    | none, '.' :: _ => none
    | _, _ =>
      let (ex, l4) := match l3 with
        | e :: rest =>
          if e = 'e' ∨ e = 'E' then
            let (es, rest2) := match rest with
              | s :: r2 => if s = '+' ∨ s = '-' then ([e, s], r2) else ([e], rest)
              | [] => ([e], rest)
            let ds := rest2.takeWhile Char.isDigit
            if ds = [] then (none, l3) else (some (es ++ ds), rest2.dropWhile Char.isDigit)
          else (none, l3)
        | [] => (none, l3)
      match ex, l3 with
      | none, e :: _ =>
        if e = 'e' ∨ e = 'E' then none
        else some (String.mk (sign ++ ip ++ fr.getD [] ++ []), l3)
      | none, [] => some (String.mk (sign ++ ip ++ fr.getD []), l3)
      | some exl, _ => some (String.mk (sign ++ ip ++ fr.getD [] ++ exl), l4)

mutual

/-- One JSON value, leading whitespace allowed; embeds `JSON.parse`
(strict: rejects trailing commas, single quotes, bare words). -/
def parseJVal : Nat → List Char → Option (JVal × List Char)
  | 0, _ => none
  | fuel + 1, l =>
    match skipWs l with
    | [] => none
    | c :: rest =>
      if c = 'n' then
        match rest with
        | 'u' :: 'l' :: 'l' :: r2 => some (.jnull, r2)
        | _ => none
      else if c = 't' then
        match rest with
        | 'r' :: 'u' :: 'e' :: r2 => some (.jbool true, r2)
        | _ => none
      else if c = 'f' then
        match rest with
        | 'a' :: 'l' :: 's' :: 'e' :: r2 => some (.jbool false, r2)
        | _ => none
      else if c = '"' then
        (parseJStr (rest.length + 1) rest []).map (fun p => (.jstr p.1, p.2))
      else if c = '{' then
        match skipWs rest with
        | '}' :: r2 => some (.jobj [], r2)
        | r2 => (parseJMembers fuel r2 []).map (fun p => (.jobj p.1.reverse, p.2))
      else if c = '[' then
        match skipWs rest with
        | ']' :: r2 => some (.jarr [], r2)
        | r2 => (parseJElems fuel r2 []).map (fun p => (.jarr p.1.reverse, p.2))
      else
        (parseJNum (c :: rest)).map (fun p => (.jnum p.1, p.2))

/-- Object members `"k": v (, "k": v)* }`, accumulating in reverse. -/
def parseJMembers : Nat → List Char → List (String × JVal) →
    Option (List (String × JVal) × List Char)
  | 0, _, _ => none
  | fuel + 1, l, acc =>
    match skipWs l with
    | '"' :: rest =>
      match parseJStr (rest.length + 1) rest [] with
      | some (k, r2) =>
        match skipWs r2 with
        | ':' :: r3 =>
          match parseJVal fuel r3 with
          | some (v, r4) =>
            match skipWs r4 with
            | ',' :: r5 => parseJMembers fuel r5 ((k, v) :: acc)
            | '}' :: r5 => some ((k, v) :: acc, r5)
            | _ => none
          | none => none
        | _ => none
      | none => none
    | _ => none

/-- Array elements `v (, v)* ]`, accumulating in reverse. -/
def parseJElems : Nat → List Char → List JVal → Option (List JVal × List Char)
  | 0, _, _ => none
  | fuel + 1, l, acc =>
    match parseJVal fuel l with
    | some (v, r2) =>
      match skipWs r2 with
      | ',' :: r3 => parseJElems fuel r3 (v :: acc)
      | ']' :: r3 => some (v :: acc, r3)
      | _ => none
    | none => none

end

/-- `JSON.parse` on a whole character list: one value, then only
whitespace. -/
def jsonParseL (l : List Char) : Option JVal :=
  match parseJVal (l.length + 1) l with
  | some (v, rest) => if skipWs rest = [] then some v else none
  | none => none

/-- `JSON.parse` on a string. -/
def jsonParse (s : String) : Option JVal :=
  jsonParseL s.data

/-- Is every mantissa digit of a JSON number literal zero?  (`0`, `-0`,
`0.00e7` are the zero numbers.) -/
def numIsZero (lit : String) : Bool :=
  let l := match lit.data with
    | '-' :: rest => rest
    | l => l
  (l.takeWhile (fun c => c ≠ 'e' ∧ c ≠ 'E')).all (fun c => c = '0' ∨ c = '.')

/-- JavaScript truthiness of a possibly-absent value (`undefined`, `null`,
`false`, `0`, `""` are falsy). -/
def jsTruthyV : JVal → Bool
  | .jnull => false
  | .jbool b => b
  | .jnum lit => !numIsZero lit
  | .jstr s => s ≠ ""
  | .jarr _ => true
  | .jobj _ => true

def jsTruthy (o : Option JVal) : Bool :=
  match o with
  | none => false
  | some v => jsTruthyV v

/-- JS property lookup `v[k]` on a parsed value: `undefined` unless `v` is
an object with the key; with duplicate keys `JSON.parse` keeps the last. -/
def objLookup (v : JVal) (k : String) : Option JVal :=
  match v with
  | .jobj fs => (fs.reverse.find? (fun p => p.1 = k)).map (fun p => p.2)
  | _ => none

/-- Optional-chain lookup `v?.[k]` on a possibly-absent value. -/
def objLookupO (o : Option JVal) (k : String) : Option JVal :=
  match o with
  | none => none
  | some v => objLookup v k

/-- Integer value of a JSON number literal when it denotes one directly:
sign and integer part, fractional part all zeros, no exponent.  (Exponent
forms such as `1e2` are conservatively rejected; they never appear as block
indexes.) -/
def numAsInt (lit : String) : Option Int :=
  let (neg, l) := match lit.data with
    | '-' :: rest => (true, rest)
    | l => (false, l)
  let ip := l.takeWhile Char.isDigit
  let rest := l.dropWhile Char.isDigit
  let ok := match rest with
    | [] => true
    | '.' :: ds => ds.all (fun c => c = '0')
    | _ => false
  if ok then
    let n : Int := Int.ofNat (String.mk ip).toNat!
    some (if neg then -n else n)
  else none

/-- Is a JSON number literal strictly negative? -/
def numLtZero (lit : String) : Bool :=
  lit.data.head? = some '-' ∧ !numIsZero lit

example : jsonParse "\x7b\"done\":true\x7d" =
    some (.jobj [("done", .jbool true)]) := by rfl

example : jsonParse "\x7b\"a\":[1,2],\x7d" = none := by rfl

example : jsTruthy (objLookupO (jsonParse "\x7b\"message\":\x7b\"content\":\"A\"\x7d\x7d") "done") = false := by
  rfl

/-! ## Balanced-payload extractor

`findBalancedJson` (src/src/components/AIChatPanel.jsx, lines 170-208):
starting at the first opening brace, scan forward tracking brace depth,
treating double-quoted string contents as opaque; return the slice up to
the brace where depth returns to zero, `none` when it never does. -/

/-- The scan loop of `findBalancedJson`, on the suffix that starts at the
first brace.  Returns the length of the prefix ending at the matching
close brace.  Depth is an `Int` exactly as in the source (where the
redundant `!escapeNext` guard on the quote test is dropped: `escapeNext`
is always false there). -/
def fbjLoop : List Char → Int → Bool → Bool → Option Nat
  | [], _, _, _ => none
  | c :: rest, depth, inString, escapeNext =>
    if escapeNext then
      (fbjLoop rest depth inString false).map (· + 1)
    else if c = '\\' ∧ inString then
      (fbjLoop rest depth inString true).map (· + 1)
    else if c = '"' then
      (fbjLoop rest depth (!inString) false).map (· + 1)
    else if ¬inString ∧ c = '{' then
      (fbjLoop rest (depth + 1) inString false).map (· + 1)
    else if ¬inString ∧ c = '}' then
      if depth - 1 = 0 then some 1
      else (fbjLoop rest (depth - 1) inString false).map (· + 1)
    else
      (fbjLoop rest depth inString false).map (· + 1)

/-- `findBalancedJson` on a character list. -/
def findBalancedJsonL (l : List Char) : Option (List Char) :=
  let suf := l.dropWhile (fun c => c ≠ '{')
  (fbjLoop suf 0 false false).map (fun n => suf.take n)

/-- `findBalancedJson(str)`: balanced JSON object slice of `str`, or
`null` when absent/unbalanced. -/
def findBalancedJson (s : String) : Option String :=
  (findBalancedJsonL s.data).map String.mk

/-- Scanner state of the specification's description of the extractor:
depth counter, in-string flag, escape flag. -/
structure ScanState where
  depth : Int
  inStr : Bool
  esc : Bool
deriving DecidableEq

/-- One step of the scan described by the specification: inside a string a
backslash escapes the next character and a quote ends the string and
braces are opaque; outside, a quote opens a string and braces move the
depth. -/
def scanStep (st : ScanState) (c : Char) : ScanState :=
  if st.esc then { st with esc := false }
  else if st.inStr then
    if c = '\\' then { st with esc := true }
    else if c = '"' then { st with inStr := false }
    else st
  else
    if c = '"' then { st with inStr := true }
    else if c = '{' then { st with depth := st.depth + 1 }
    else if c = '}' then { st with depth := st.depth - 1 }
    else st

def scanList (l : List Char) (st : ScanState) : ScanState :=
  l.foldl scanStep st

/-- Depth of the specification scanner after reading `l` from the initial
state. -/
def scanDepth (l : List Char) : Int :=
  (scanList l ⟨0, false, false⟩).depth

example : findBalancedJson "say \x7b\"a\":\"x\x7dy\"\x7d end" =
    some "\x7b\"a\":\"x\x7dy\"\x7d" := by rfl

example : findBalancedJson "no json here" = none := by rfl

example : findBalancedJson "\x7b\"a\": \x7b\"b\": 1\x7d" = none := by rfl

lemma scanList_nil (st : ScanState) : scanList [] st = st := rfl

lemma scanList_cons (c : Char) (l : List Char) (st : ScanState) :
    scanList (c :: l) st = scanList l (scanStep st c) := rfl

/-- The loop of `findBalancedJson` advances its three state variables
exactly as the specification scanner does, and returns at a character
exactly when that step brings the depth to zero (possible only at a close
brace once the depth is positive). -/
lemma fbjLoop_step (c : Char) (rest : List Char) (d : Int) (i e : Bool)
    (hd : 1 ≤ d) :
    fbjLoop (c :: rest) d i e =
      (if (scanStep ⟨d, i, e⟩ c).depth = 0 then some 1
       else ((fbjLoop rest (scanStep ⟨d, i, e⟩ c).depth
          (scanStep ⟨d, i, e⟩ c).inStr (scanStep ⟨d, i, e⟩ c).esc).map (· + 1))) := by
  rcases e with _ | _ <;> rcases i with _ | _ <;>
    by_cases h1 : c = '\\' <;> by_cases h2 : c = '"' <;>
    by_cases h3 : c = '{' <;> by_cases h4 : c = '}' <;>
    simp_all [fbjLoop, scanStep] <;> rw [if_neg (by omega)]

lemma scanStep_depth (st : ScanState) (c : Char) :
    (scanStep st c).depth = st.depth ∨ (scanStep st c).depth = st.depth + 1 ∨
      (scanStep st c).depth = st.depth - 1 := by
  unfold scanStep
  split_ifs <;> simp

/-- When the step from a positive depth lands on depth zero, the character
read was a close brace outside a string. -/
lemma scanStep_zero (c : Char) (d : Int) (i e : Bool) (hd : 1 ≤ d)
    (h : (scanStep ⟨d, i, e⟩ c).depth = 0) : c = '}' := by
  by_contra hc
  rcases e with _ | _ <;> rcases i with _ | _ <;>
    by_cases h1 : c = '\\' <;> by_cases h2 : c = '"' <;>
    by_cases h3 : c = '{' <;>
    simp_all [scanStep]
  all_goals omega

lemma getLast?_cons_of_ne_nil {α : Type} (c : α) {xs : List α} (h : xs ≠ []) :
    (c :: xs).getLast? = xs.getLast? := by
  cases xs with
  | nil => exact absurd rfl h
  | cons b t => simp [List.getLast?_cons_cons]

/-- A successful `fbjLoop` run from positive depth returns the length of the
shortest nonempty prefix on which the specification scanner's depth comes
back to zero, and that prefix ends with a close brace. -/
lemma fbjLoop_some (l : List Char) : ∀ (d : Int) (i e : Bool) (n : Nat),
    1 ≤ d → fbjLoop l d i e = some n →
    1 ≤ n ∧ n ≤ l.length ∧ (scanList (l.take n) ⟨d, i, e⟩).depth = 0 ∧
      (∀ m, 1 ≤ m → m < n → (scanList (l.take m) ⟨d, i, e⟩).depth ≠ 0) ∧
      (l.take n).getLast? = some '}' := by
  induction l with
  | nil => intro d i e n _ h; simp [fbjLoop] at h
  | cons c rest ih =>
    intro d i e n hd h
    rw [fbjLoop_step c rest d i e hd] at h
    by_cases hz : (scanStep ⟨d, i, e⟩ c).depth = 0
    · rw [if_pos hz] at h
      have hn : n = 1 := by
        simpa using h.symm
      subst hn
      refine ⟨le_refl 1, by simp, ?_, ?_, ?_⟩
      · simpa [scanList_cons, scanList_nil] using hz
      · intro m hm1 hm2; omega
      · have : c = '}' := scanStep_zero c d i e hd hz
        simp [this]
    · rw [if_neg hz] at h
      match hrec : fbjLoop rest (scanStep ⟨d, i, e⟩ c).depth
          (scanStep ⟨d, i, e⟩ c).inStr (scanStep ⟨d, i, e⟩ c).esc with
      | none => rw [hrec] at h; simp at h
      | some n' =>
        rw [hrec] at h
        simp at h
        have hd' : 1 ≤ (scanStep ⟨d, i, e⟩ c).depth := by
          rcases scanStep_depth ⟨d, i, e⟩ c with h1 | h1 | h1 <;>
            simp at h1 <;> omega
        obtain ⟨hn1, hn2, hn3, hn4, hn5⟩ :=
          ih (scanStep ⟨d, i, e⟩ c).depth (scanStep ⟨d, i, e⟩ c).inStr
            (scanStep ⟨d, i, e⟩ c).esc n' hd' hrec
        subst h
        refine ⟨by omega, by simp; omega, ?_, ?_, ?_⟩
        · rw [List.take_succ_cons, scanList_cons]
          exact hn3
        · intro m hm1 hm2
          match m, hm1 with
          | 1, _ =>
            simpa [scanList_cons, scanList_nil] using hz
          | m'' + 2, _ =>
            rw [List.take_succ_cons, scanList_cons]
            exact hn4 (m'' + 1) (by omega) (by omega)
        · rw [List.take_succ_cons]
          rw [getLast?_cons_of_ne_nil]
          · exact hn5
          · intro hemp
            rw [List.take_eq_nil_iff] at hemp
            rcases hemp with h1 | h1
            · omega
            · subst h1; simp at hn2; omega

/-- A failing `fbjLoop` run from positive depth means the scanner's depth
never returns to zero on any nonempty prefix. -/
lemma fbjLoop_none (l : List Char) : ∀ (d : Int) (i e : Bool),
    1 ≤ d → fbjLoop l d i e = none →
    ∀ m, 1 ≤ m → m ≤ l.length → (scanList (l.take m) ⟨d, i, e⟩).depth ≠ 0 := by
  induction l with
  | nil => intro d i e _ _ m hm1 hm2; simp at hm2; omega
  | cons c rest ih =>
    intro d i e hd h m hm1 hm2
    rw [fbjLoop_step c rest d i e hd] at h
    by_cases hz : (scanStep ⟨d, i, e⟩ c).depth = 0
    · rw [if_pos hz] at h; simp at h
    · rw [if_neg hz] at h
      match hrec : fbjLoop rest (scanStep ⟨d, i, e⟩ c).depth
          (scanStep ⟨d, i, e⟩ c).inStr (scanStep ⟨d, i, e⟩ c).esc with
      | some n' => rw [hrec] at h; simp at h
      | none =>
        have hd' : 1 ≤ (scanStep ⟨d, i, e⟩ c).depth := by
          rcases scanStep_depth ⟨d, i, e⟩ c with h1 | h1 | h1 <;>
            simp at h1 <;> omega
        match m, hm1 with
        | 1, _ => simpa [scanList_cons, scanList_nil] using hz
        | m'' + 2, _ =>
          rw [List.take_succ_cons, scanList_cons]
          exact ih (scanStep ⟨d, i, e⟩ c).depth (scanStep ⟨d, i, e⟩ c).inStr
            (scanStep ⟨d, i, e⟩ c).esc hd' hrec (m'' + 1) (by omega)
            (by simp at hm2; omega)

lemma fbjLoop_open (rest : List Char) :
    fbjLoop ('{' :: rest) 0 false false = (fbjLoop rest 1 false false).map (· + 1) := by
  simp [fbjLoop]

lemma dropWhile_head_not {p : Char → Bool} {l : List Char} {c : Char}
    {rest : List Char} (h : l.dropWhile p = c :: rest) : ¬ p c := by
  induction l with
  | nil => simp at h
  | cons a t ih =>
    rw [List.dropWhile_cons] at h
    by_cases hp : p a
    · rw [if_pos hp] at h; exact ih h
    · rw [if_neg hp] at h
      obtain ⟨h1, _⟩ := List.cons.inj h
      subst h1; exact hp

/-- C3: `findBalancedJson` returns exactly the slice of its input
running from the first open brace to the brace at which the specification
scanner (which treats double-quoted string contents as opaque and lets a
backslash escape the next character) first brings the depth back to zero;
when the depth never returns to zero — or there is no open brace — it
returns `none`, never a truncated slice. -/
theorem c3_find_balanced_json (s : String) :
    (∀ r, findBalancedJson s = some r →
        s.data = (s.data.takeWhile (fun c => c ≠ '{')) ++ r.data
                   ++ (s.data.dropWhile (fun c => c ≠ '{')).drop r.data.length
      ∧ (∀ c ∈ s.data.takeWhile (fun c => c ≠ '{'), c ≠ '{')
      ∧ r.data.head? = some '{'
      ∧ r.data.getLast? = some '}'
      ∧ scanDepth r.data = 0
      ∧ (∀ m, 1 ≤ m → m < r.data.length → scanDepth (r.data.take m) ≠ 0))
    ∧ (findBalancedJson s = none →
        (∀ c ∈ s.data, c ≠ '{')
      ∨ (∀ m, 1 ≤ m → m ≤ (s.data.dropWhile (fun c => c ≠ '{')).length →
           scanDepth ((s.data.dropWhile (fun c => c ≠ '{')).take m) ≠ 0)) := by
  constructor
  · intro r hr
    unfold findBalancedJson findBalancedJsonL at hr
    simp only [Option.map_map, Option.map_eq_some'] at hr
    obtain ⟨n, hn, hr⟩ := hr
    have hrdata : r.data = (s.data.dropWhile (fun c => c ≠ '{')).take n := by
      rw [← hr]; rfl
    match hsuf : s.data.dropWhile (fun c => c ≠ '{') with
    | [] => rw [hsuf] at hn; simp [fbjLoop] at hn
    | c :: rest =>
      have hc : c = '{' := by
        have := dropWhile_head_not hsuf
        simpa using this
      subst hc
      rw [hsuf] at hn
      rw [fbjLoop_open] at hn
      match hrec : fbjLoop rest 1 false false with
      | none => rw [hrec] at hn; simp at hn
      | some n' =>
        rw [hrec] at hn
        simp at hn
        obtain ⟨h1, h2, h3, h4, h5⟩ := fbjLoop_some rest 1 false false n' (by omega) hrec
        rw [hsuf] at hrdata
        subst hn
        rw [List.take_succ_cons] at hrdata
        have hlen : r.data.length = n' + 1 := by
          rw [hrdata]; simp; omega
        have hstep : scanStep ⟨0, false, false⟩ '{' = ⟨1, false, false⟩ := by
          simp [scanStep]
        refine ⟨?_, ?_, ?_, ?_, ?_, ?_⟩
        · conv_lhs => rw [← List.takeWhile_append_dropWhile (p := fun c => c ≠ '{') (l := s.data)]
          rw [hsuf, hlen, hrdata]
          simp
        · intro c hcmem
          have := List.mem_takeWhile_imp hcmem
          simpa using this
        · rw [hrdata]; rfl
        · rw [hrdata]
          rw [getLast?_cons_of_ne_nil]
          · exact h5
          · intro hemp
            rw [List.take_eq_nil_iff] at hemp
            rcases hemp with hh | hh
            · omega
            · subst hh; simp at h2; omega
        · rw [hrdata]
          unfold scanDepth
          rw [scanList_cons, hstep]
          exact h3
        · intro m hm1 hm2
          rw [hlen] at hm2
          rw [hrdata]
          match m, hm1 with
          | 1, _ =>
            unfold scanDepth
            simp [scanList_cons, scanList_nil, hstep]
          | m'' + 2, _ =>
            rw [List.take_succ_cons, List.take_take]
            have hmin : min (m'' + 1) n' = m'' + 1 := by omega
            rw [hmin]
            unfold scanDepth
            rw [scanList_cons, hstep]
            exact h4 (m'' + 1) (by omega) (by omega)
  · intro hr
    unfold findBalancedJson findBalancedJsonL at hr
    simp only [Option.map_map, Option.map_eq_none'] at hr
    match hsuf : s.data.dropWhile (fun c => c ≠ '{') with
    | [] =>
      left
      rw [List.dropWhile_eq_nil_iff] at hsuf
      intro c hc
      simpa using hsuf c hc
    | c :: rest =>
      right
      have hc : c = '{' := by
        have := dropWhile_head_not hsuf
        simpa using this
      subst hc
      rw [hsuf] at hr
      rw [fbjLoop_open] at hr
      simp only [Option.map_eq_none'] at hr
      have hnone := fbjLoop_none rest 1 false false (by omega) hr
      intro m hm1 hm2
      have hstep : scanStep ⟨0, false, false⟩ '{' = ⟨1, false, false⟩ := by
        simp [scanStep]
      match m, hm1 with
      | 1, _ =>
        unfold scanDepth
        simp [scanList_cons, scanList_nil, hstep]
      | m'' + 2, _ =>
        rw [List.take_succ_cons]
        unfold scanDepth
        rw [scanList_cons, hstep]
        exact hnone (m'' + 1) (by omega) (by simp at hm2; omega)

/-- Witness for C3 at a concrete input: a balanced object embedded in
prose, with a close brace hidden inside a quoted string. -/
theorem c3_find_balanced_json_witness :
    findBalancedJson "say \x7b\"a\":\"x\x7dy\"\x7d end" = some "\x7b\"a\":\"x\x7dy\"\x7d"
    ∧ ("\x7b\"a\":\"x\x7dy\"\x7d" : String).data.head? = some '{'
    ∧ ("\x7b\"a\":\"x\x7dy\"\x7d" : String).data.getLast? = some '}'
    ∧ scanDepth ("\x7b\"a\":\"x\x7dy\"\x7d" : String).data = 0 := by
  have h := (c3_find_balanced_json "say \x7b\"a\":\"x\x7dy\"\x7d end").1
    "\x7b\"a\":\"x\x7dy\"\x7d" (by rfl)
  exact ⟨by rfl, h.2.2.1, h.2.2.2.1, h.2.2.2.2.1⟩

/-! ## Stream reader

`ollamaService.chatStream` (src/unnamed/part_001, lines 239-284): each
network read is decoded, split on newlines, blank lines dropped, and every
line parsed as JSON on its own — nothing is carried from one read to the
next.  `message.content` of parsed lines is accumulated; a truthy `done`
stops the stream. -/

mutual

/-- Template-literal coercion of an array: elements joined with commas,
nulls becoming empty (JS `Array.prototype.toString`). -/
def jsDisplayArr : List JVal → String
  | [] => ""
  | [x] => jsDisplayElem x
  | x :: y :: rest => jsDisplayElem x ++ "," ++ jsDisplayArr (y :: rest)

def jsDisplayElem : JVal → String
  | .jnull => ""
  | .jbool b => if b then "true" else "false"
  | .jnum lit => lit
  | .jstr s => s
  | .jobj _ => "[object Object]"
  | .jarr xs => jsDisplayArr xs

end

/-- Template-literal coercion `String(v)`. -/
def jsToDisplay : JVal → String
  | .jnull => "null"
  | .jbool b => if b then "true" else "false"
  | .jnum lit => lit
  | .jstr s => s
  | .jobj _ => "[object Object]"
  | .jarr xs => jsDisplayArr xs

/-- `String(v)` on a possibly-absent value (`undefined` prints as the word
undefined inside a template literal). -/
def dispOpt : Option JVal → String
  | none => "undefined"
  | some v => jsToDisplay v

/-- `str.split('\n')` on a character list: `n` separators give `n + 1`
pieces. -/
def splitNl : List Char → List (List Char)
  | [] => [[]]
  | c :: rest =>
    if c = '\n' then [] :: splitNl rest
    else
      match splitNl rest with
      | [] => [[c]]
      | h :: t => (c :: h) :: t

/-- `str.trim()` on a character list. -/
def jsTrimL (l : List Char) : List Char :=
  ((l.dropWhile Char.isWhitespace).reverse.dropWhile Char.isWhitespace).reverse

/-- `chunk.split('\n').filter(line => line.trim())`. -/
def chatLines (chunk : List Char) : List (List Char) :=
  (splitNl chunk).filter (fun ln => !(jsTrimL ln).isEmpty)

/-- The per-line loop of `chatStream`: accumulate `data.message?.content`
of every line that parses as JSON (silently skipping the rest), and stop
(`true`) at the first line with a truthy `done`. -/
def processLines : List (List Char) → List Char → (List Char × Bool)
  | [], acc => (acc, false)
  | ln :: rest, acc =>
    match jsonParseL ln with
    | none => processLines rest acc
    | some data =>
      let mc := objLookupO (objLookup data "message") "content"
      let acc2 :=
        if jsTruthy mc then
          acc ++ (match mc with
                  | some v => (jsToDisplay v).data
                  | none => [])
        else acc
      if jsTruthy (objLookup data "done") then (acc2, true)
      else processLines rest acc2

/-- The read loop of `chatStream`: one entry of `chunks` per network read. -/
def chatStreamGo : List (List Char) → List Char → List Char
  | [], acc => acc
  | chunk :: rest, acc =>
    let p := processLines (chatLines chunk) acc
    if p.2 then p.1 else chatStreamGo rest p.1

/-- Accumulated text returned by `ollamaService.chatStream` when the reads
deliver `chunks`. -/
def chatStream (chunks : List (List Char)) : List Char :=
  chatStreamGo chunks []

set_option maxRecDepth 8000 in
example : chatStream ["\x7b\"message\":\x7b\"content\":\"Hi \"\x7d\x7d\n".data,
    "\x7b\"message\":\x7b\"content\":\"there\"\x7d,\"done\":false\x7d\n\x7b\"done\":true\x7d\n".data,
    "\x7b\"message\":\x7b\"content\":\"late\"\x7d\x7d\n".data] = "Hi there".data := by rfl

set_option maxRecDepth 8000 in
/-- C2 counterexample: a JSON line split across two network reads is not
rejoined.  Delivered in one read the stream yields `A`; delivered split it
yields nothing, so `chatStream` does not produce the same accumulated text
as a single-read delivery. -/
theorem c2_chat_stream_counterexample :
    chatStream ["\x7b\"message\":\x7b\"cont".data ++ "ent\":\"A\"\x7d\x7d\n".data] = "A".data
    ∧ chatStream ["\x7b\"message\":\x7b\"cont".data, "ent\":\"A\"\x7d\x7d\n".data] = []
    ∧ "A".data ≠ ([] : List Char) := by
  refine ⟨by rfl, by rfl, by simp⟩

lemma splitNl_ne_nil (l : List Char) : splitNl l ≠ [] := by
  cases l with
  | nil => simp [splitNl]
  | cons c rest =>
    unfold splitNl
    by_cases h : c = '\n'
    · simp [h]
    · rw [if_neg h]
      match splitNl rest with
      | [] => simp
      | h2 :: t => simp

lemma dropLast_cons_of_ne_nil {α : Type} (x : α) {xs : List α} (h : xs ≠ []) :
    (x :: xs).dropLast = x :: xs.dropLast := by
  cases xs with
  | nil => exact absurd rfl h
  | cons b t => rfl

lemma mem_of_getLast?_eq {α : Type} {l : List α} {a : α}
    (h : l.getLast? = some a) : a ∈ l := by
  have hm : a ∈ l.getLast? := by rw [h]; rfl
  obtain ⟨hne, heq⟩ := List.mem_getLast?_eq_getLast hm
  rw [heq]
  exact List.getLast_mem hne

/-- A list containing a newline splits into at least two pieces. -/
lemma splitNl_len2 (l : List Char) (h : '\n' ∈ l) : 2 ≤ (splitNl l).length := by
  induction l with
  | nil => simp at h
  | cons c rest ih =>
    unfold splitNl
    by_cases hc : c = '\n'
    · rw [if_pos hc]
      have := splitNl_ne_nil rest
      simp
      exact List.length_pos.mpr this
    · rw [if_neg hc]
      have hm : '\n' ∈ rest := by
        rcases List.mem_cons.mp h with h1 | h1
        · exact absurd h1.symm hc
        · exact h1
      match hsp : splitNl rest with
      | [] => exact absurd hsp (splitNl_ne_nil rest)
      | h2 :: t =>
        have := ih hm
        rw [hsp] at this
        simpa using this

/-- The last split piece of a list ending with a newline is empty. -/
lemma splitNl_getLast (l : List Char) (h : l.getLast? = some '\n') :
    (splitNl l).getLast? = some [] := by
  induction l with
  | nil => simp at h
  | cons c rest ih =>
    cases rest with
    | nil =>
      simp at h
      subst h
      simp [splitNl]
    | cons c2 rest2 =>
      have hlast : (c2 :: rest2).getLast? = some '\n' := by
        rw [getLast?_cons_of_ne_nil c (by simp)] at h
        exact h
      have ihh := ih hlast
      unfold splitNl
      by_cases hc : c = '\n'
      · rw [if_pos hc]
        rw [getLast?_cons_of_ne_nil _ (splitNl_ne_nil _)]
        exact ihh
      · rw [if_neg hc]
        match hsp : splitNl (c2 :: rest2) with
        | [] => exact absurd hsp (splitNl_ne_nil _)
        | h2 :: t =>
          have hlen := splitNl_len2 (c2 :: rest2) (mem_of_getLast?_eq hlast)
          rw [hsp] at hlen
          rw [hsp] at ihh
          match t, hlen with
          | t1 :: t2, _ =>
            rw [getLast?_cons_of_ne_nil _ (by simp)]
            rw [getLast?_cons_of_ne_nil _ (by simp)] at ihh
            exact ihh

lemma splitNl_cons_nl (rest : List Char) : splitNl ('\n' :: rest) = [] :: splitNl rest := by
  simp [splitNl]

lemma splitNl_cons_ne (c : Char) (rest : List Char) (hc : c ≠ '\n')
    (h2 : List Char) (t : List (List Char)) (hsp : splitNl rest = h2 :: t) :
    splitNl (c :: rest) = (c :: h2) :: t := by
  unfold splitNl
  rw [if_neg hc, hsp]

/-- Splitting a concatenation whose first part ends with a newline: the
pieces are the first part's pieces (minus its empty trailing piece)
followed by the second part's pieces. -/
lemma splitNl_append (a b : List Char) (h : a.getLast? = some '\n') :
    splitNl (a ++ b) = (splitNl a).dropLast ++ splitNl b := by
  induction a with
  | nil => simp at h
  | cons c rest ih =>
    cases rest with
    | nil =>
      simp at h
      subst h
      rw [List.cons_append, List.nil_append, splitNl_cons_nl, splitNl_cons_nl]
      simp [splitNl]
    | cons c2 rest2 =>
      have hlast : (c2 :: rest2).getLast? = some '\n' := by
        rw [getLast?_cons_of_ne_nil c (by simp)] at h
        exact h
      have ihh := ih hlast
      by_cases hc : c = '\n'
      · subst hc
        rw [List.cons_append, splitNl_cons_nl, splitNl_cons_nl, ihh,
          dropLast_cons_of_ne_nil _ (splitNl_ne_nil _), List.cons_append]
      · match hsp : splitNl (c2 :: rest2) with
        | [] => exact absurd hsp (splitNl_ne_nil _)
        | h2 :: t =>
          have hlen := splitNl_len2 (c2 :: rest2) (mem_of_getLast?_eq hlast)
          rw [hsp] at hlen
          match t, hlen with
          | t1 :: t2, _ =>
            have hsp2 : splitNl ((c2 :: rest2) ++ b) =
                h2 :: ((t1 :: t2).dropLast ++ splitNl b) := by
              rw [ihh, hsp, dropLast_cons_of_ne_nil _ (by simp), List.cons_append]
            rw [List.cons_append, splitNl_cons_ne c _ hc _ _ hsp2,
              splitNl_cons_ne c _ hc _ _ hsp]
            have e : ((c :: h2) :: t1 :: t2).dropLast = (c :: h2) :: (t1 :: t2).dropLast :=
              dropLast_cons_of_ne_nil _ (by simp)
            rw [e, List.cons_append]

/-- The nonblank lines of a concatenation whose first part ends with a
newline are the first part's nonblank lines then the second's. -/
lemma chatLines_append (a b : List Char) (h : a.getLast? = some '\n') :
    chatLines (a ++ b) = chatLines a ++ chatLines b := by
  unfold chatLines
  rw [splitNl_append a b h]
  rw [List.filter_append]
  congr 1
  have hlast := splitNl_getLast a h
  have hne := splitNl_ne_nil a
  conv_rhs => rw [← List.dropLast_append_getLast hne]
  rw [List.filter_append]
  have hemp : (splitNl a).getLast hne = [] := by
    rw [List.getLast?_eq_getLast_of_ne_nil hne, Option.some_inj] at hlast
    exact hlast
  rw [hemp]
  simp [jsTrimL]

lemma processLines_cons (ln : List Char) (rest : List (List Char)) (acc : List Char) :
    processLines (ln :: rest) acc =
      (match jsonParseL ln with
       | none => processLines rest acc
       | some data =>
         let mc := objLookupO (objLookup data "message") "content"
         let acc2 :=
           if jsTruthy mc then
             acc ++ (match mc with
                     | some v => (jsToDisplay v).data
                     | none => [])
           else acc
         if jsTruthy (objLookup data "done") then (acc2, true)
         else processLines rest acc2) := rfl

/-- The line loop processes a concatenation of line lists as the first
list, then (unless `done` stopped it) the second. -/
lemma processLines_append (L1 L2 : List (List Char)) (acc : List Char) :
    processLines (L1 ++ L2) acc =
      (if (processLines L1 acc).2 then processLines L1 acc
       else processLines L2 (processLines L1 acc).1) := by
  induction L1 generalizing acc with
  | nil => simp [processLines]
  | cons ln rest ih =>
    rw [List.cons_append, processLines_cons ln (rest ++ L2) acc,
      processLines_cons ln rest acc]
    rcases hj : jsonParseL ln with _ | data
    · exact ih acc
    · by_cases hdone : jsTruthy (objLookup data "done")
      · simp only [hdone, if_true]
      · simp only [Bool.not_eq_true] at hdone
        simp only [hdone, Bool.false_eq_true, if_false]
        exact ih _

lemma chatLines_nil : chatLines [] = [] := by
  simp [chatLines, splitNl, jsTrimL]

lemma chatStreamGo_single (chunk : List Char) (acc : List Char) :
    chatStreamGo [chunk] acc = (processLines (chatLines chunk) acc).1 := by
  show (let p := processLines (chatLines chunk) acc
        if p.2 then p.1 else chatStreamGo [] p.1) = _
  by_cases hd : (processLines (chatLines chunk) acc).2
  · simp only [hd, if_true]
  · simp only [hd, Bool.false_eq_true, if_false]
    rfl

/-- When every read ends on a line boundary, the read loop accumulates the
same text as processing all lines of the joined stream at once. -/
lemma chatStreamGo_join (chunks : List (List Char)) :
    ∀ acc, (∀ c ∈ chunks, c = [] ∨ c.getLast? = some '\n') →
    chatStreamGo chunks acc = (processLines (chatLines chunks.flatten) acc).1 := by
  induction chunks with
  | nil => intro acc _; simp [chatStreamGo, chatLines_nil, processLines]
  | cons c rest ih =>
    intro acc h
    have hc := h c (List.mem_cons_self c rest)
    have hrest : ∀ x ∈ rest, x = [] ∨ x.getLast? = some '\n' :=
      fun x hx => h x (List.mem_cons_of_mem c hx)
    show (let p := processLines (chatLines c) acc
          if p.2 then p.1 else chatStreamGo rest p.1) = _
    rcases hc with hc | hc
    · subst hc
      show (let p := processLines (chatLines []) acc
            if p.2 then p.1 else chatStreamGo rest p.1) = _
      rw [chatLines_nil]
      show chatStreamGo rest acc = _
      rw [ih acc hrest]
      rfl
    · show (let p := processLines (chatLines c) acc
            if p.2 then p.1 else chatStreamGo rest p.1) = _
      have hj : (c :: rest).flatten = c ++ rest.flatten := rfl
      rw [hj, chatLines_append c rest.flatten hc, processLines_append]
      by_cases hd : (processLines (chatLines c) acc).2
      · simp only [hd, if_true]
      · simp only [hd, Bool.false_eq_true, if_false]
        exact ih _ hrest

/-- C2 amended: `chatStream` splits each read on newlines independently
and silently drops unparseable fragments, so it reproduces single-read
delivery only when every read ends on a line boundary (empty reads
allowed); a line split across reads is discarded, not rejoined. -/
theorem c2_chat_stream_line_boundary (chunks : List (List Char))
    (h : ∀ c ∈ chunks, c = [] ∨ c.getLast? = some '\n') :
    chatStream chunks = chatStream [chunks.flatten] := by
  unfold chatStream
  rw [chatStreamGo_single]
  exact chatStreamGo_join chunks [] h

set_option maxRecDepth 8000 in
/-- Witness for the amended C2 at a concrete two-read stream, each read
ending on a line boundary. -/
theorem c2_chat_stream_line_boundary_witness :
    (∀ c ∈ ["\x7b\"message\":\x7b\"content\":\"Hi\"\x7d\x7d\n".data,
            "\x7b\"done\":true\x7d\n".data], c = [] ∨ c.getLast? = some '\n')
    ∧ chatStream ["\x7b\"message\":\x7b\"content\":\"Hi\"\x7d\x7d\n".data,
        "\x7b\"done\":true\x7d\n".data] =
      chatStream [(["\x7b\"message\":\x7b\"content\":\"Hi\"\x7d\x7d\n".data,
        "\x7b\"done\":true\x7d\n".data] : List (List Char)).flatten] :=
  ⟨by decide, c2_chat_stream_line_boundary _ (by decide)⟩

/-! ## Document model

The block collection of the current `LessonBuilder` component (the version
wired to `App.jsx` and `AIChatPanel.jsx`): `handleAIAddBlock`,
`deleteBlock` (lines 974-994 of its source, the fresh-block reset
variant), `updateBlock`.  Block ids are opaque tokens, modelled as `Nat`;
fresh ids (`generateBlockId()` / `Date.now()`) are supplied by the caller
or drawn from a counter.  The `setActiveBlockId` focus bookkeeping is
UI-only and does not touch the collection, so it is not modelled. -/

structure Block where
  id : Nat
  btype : String
  content : Option JVal := none
  showPreview : Option Bool := none
  language : Option JVal := none
  filename : Option JVal := none
  caption : Option JVal := none
  options : Option (List JVal) := none
  correctAnswer : Option JVal := none

/-- Block data as passed to `handleAIAddBlock` (everything but the id). -/
structure BlockData where
  btype : String
  content : Option JVal := none
  showPreview : Option Bool := none
  language : Option JVal := none
  filename : Option JVal := none
  caption : Option JVal := none
  options : Option (List JVal) := none
  correctAnswer : Option JVal := none

/-- The new-block construction of `handleAIAddBlock`:
`id: customId || Date.now()` (so a numeric id 0 is falsy and replaced),
spread of the block data, quiz option defaults when `options` is falsy,
and an empty image caption when `caption === undefined`. -/
def mkAIBlock (data : BlockData) (customId : Option Nat) (now : Nat) : Block :=
  let bid := match customId with
    | some i => if i = 0 then now else i
    | none => now
  let base : Block :=
    { id := bid, btype := data.btype, content := data.content,
      showPreview := data.showPreview, language := data.language,
      filename := data.filename, caption := data.caption,
      options := data.options, correctAnswer := data.correctAnswer }
  let base :=
    if data.btype = "quiz" ∧ data.options.isNone then
      { base with options := some [.jstr "", .jstr ""],
                  correctAnswer := some (.jnum "0") }
    else base
  if data.btype = "image" ∧ data.caption.isNone then
    { base with caption := some (.jstr "") }
  else base

/-- `blocks.findIndex(b => b.id === afterId)`, as an `Option`
(`none` for JavaScript's `-1`). -/
def findIndexId : List Block → Nat → Option Nat
  | [], _ => none
  | b :: rest, t => if b.id = t then some 0 else (findIndexId rest t).map (· + 1)

/-- `arr.splice(i, 0, x)`: insert at position `i`, clamped to the length. -/
def insertAt : Nat → Block → List Block → List Block
  | 0, x, l => x :: l
  | _ + 1, x, [] => [x]
  | i + 1, x, b :: rest => b :: insertAt i x rest

/-- `handleAIAddBlock(blockData, afterId, customId)`: append when the
anchor is absent (or falsy), otherwise splice right after the anchor's
index — which is position 0 when `findIndex` returned `-1`. -/
def handleAIAddBlock (blocks : List Block) (data : BlockData)
    (afterId : Option Nat) (customId : Option Nat) (now : Nat) : List Block :=
  match afterId with
  | some a =>
    if a ≠ 0 then
      match findIndexId blocks a with
      | some i => insertAt (i + 1) (mkAIBlock data customId now) blocks
      | none => insertAt 0 (mkAIBlock data customId now) blocks
    else blocks ++ [mkAIBlock data customId now]
  | none => blocks ++ [mkAIBlock data customId now]

/-- The fresh empty block that replaces a fully emptied canvas:
`{ id: generateBlockId(), type: 'text', content: '' }`. -/
def freshTextBlock (freshId : Nat) : Block :=
  { id := freshId, btype := "text", content := some (.jstr "") }

/-- `deleteBlock(id)` of the current LessonBuilder: drop the block, and if
that empties the collection, reset it to one fresh empty text block. -/
def deleteBlock (blocks : List Block) (targetId : Nat) (freshId : Nat) : List Block :=
  if (blocks.filter (fun b => b.id ≠ targetId)).isEmpty then [freshTextBlock freshId]
  else blocks.filter (fun b => b.id ≠ targetId)

/-- `deleteBlock(id)` of the older LessonBuilder snapshot
(src/src/components/LessonBuilder.jsx, lines 473-481): refuse to delete
the sole remaining block instead of resetting. -/
def deleteBlockLegacy (blocks : List Block) (targetId : Nat) : List Block :=
  if blocks.length ≤ 1 then blocks else blocks.filter (fun b => b.id ≠ targetId)

/-- `{...b, [field]: value}` for the fields the model represents. -/
def setBlockField (b : Block) (field : String) (v : Option JVal) : Block :=
  if field = "content" then { b with content := v }
  else if field = "caption" then { b with caption := v }
  else if field = "language" then { b with language := v }
  else if field = "filename" then { b with filename := v }
  else b

/-- `updateBlock(id, field, value)`: map over the collection, updating the
blocks with the given id; unknown ids make it a no-op. -/
def updateBlock (blocks : List Block) (targetId : Nat) (field : String)
    (v : Option JVal) : List Block :=
  blocks.map (fun b => if b.id = targetId then setBlockField b field v else b)

/-- C1: the collection can never drop below one block — `deleteBlock`
always leaves at least one — and deleting the sole remaining block
replaces it with exactly one fresh empty text block. -/
theorem c1_delete_block_invariant (blocks : List Block) (targetId freshId : Nat) :
    1 ≤ (deleteBlock blocks targetId freshId).length
    ∧ (∀ b, blocks = [b] → targetId = b.id →
        deleteBlock blocks targetId freshId = [freshTextBlock freshId]) := by
  constructor
  · unfold deleteBlock
    by_cases h : (blocks.filter (fun b => b.id ≠ targetId)).isEmpty
    · rw [if_pos h]
      simp
    · rw [if_neg h]
      have hne : blocks.filter (fun b => b.id ≠ targetId) ≠ [] := by
        intro hh
        rw [hh] at h
        simp at h
      exact List.length_pos.mpr hne
  · intro b hb ht
    subst hb
    subst ht
    unfold deleteBlock
    simp

/-- Witness for C1: deleting the only block of a one-block document. -/
theorem c1_delete_block_invariant_witness :
    deleteBlock [{ id := 5, btype := "html", content := some (.jstr "<p>x</p>") }] 5 9
      = [freshTextBlock 9] :=
  (c1_delete_block_invariant
      [{ id := 5, btype := "html", content := some (.jstr "<p>x</p>") }] 5 9).2
    _ rfl rfl

lemma insertAt_length (x : Block) : ∀ (i : Nat) (l : List Block),
    (insertAt i x l).length = l.length + 1 := by
  intro i
  induction i with
  | zero => intro l; rfl
  | succ n ih =>
    intro l
    cases l with
    | nil => rfl
    | cons b rest => simpa [insertAt] using ih rest

lemma insertAt_eq_take_drop (x : Block) : ∀ (i : Nat) (l : List Block),
    i ≤ l.length → insertAt i x l = l.take i ++ [x] ++ l.drop i := by
  intro i
  induction i with
  | zero => intro l _; rfl
  | succ n ih =>
    intro l hlen
    cases l with
    | nil => simp at hlen
    | cons b rest =>
      show b :: insertAt n x rest = _
      rw [ih rest (by simpa using hlen)]
      simp

lemma findIndexId_none (t : Nat) : ∀ (l : List Block),
    findIndexId l t = none ↔ ∀ b ∈ l, b.id ≠ t := by
  intro l
  induction l with
  | nil => simp [findIndexId]
  | cons b rest ih =>
    unfold findIndexId
    by_cases h : b.id = t
    · simp [h]
    · rw [if_neg h]
      simp only [Option.map_eq_none', List.mem_cons]
      constructor
      · intro hn x hx
        rcases hx with hx | hx
        · subst hx; exact h
        · exact (ih.mp hn) x hx
      · intro hall
        exact ih.mpr (fun x hx => hall x (Or.inr hx))

lemma findIndexId_some_lt (t : Nat) : ∀ (l : List Block) (i : Nat),
    findIndexId l t = some i → i < l.length := by
  intro l
  induction l with
  | nil => intro i h; simp [findIndexId] at h
  | cons b rest ih =>
    intro i h
    unfold findIndexId at h
    by_cases hb : b.id = t
    · rw [if_pos hb] at h
      simp at h
      subst h
      simp
    · rw [if_neg hb] at h
      simp only [Option.map_eq_some'] at h
      obtain ⟨j, hj, hji⟩ := h
      subst hji
      have := ih j hj
      simp
      omega

/-- C10: `handleAIAddBlock` grows the collection by exactly one block and
leaves the existing blocks untouched (the result is the old list with the
new block spliced in at one position); a null anchor appends at the end, a
matching anchor inserts immediately after its first match, and an anchor
matching no block inserts at position 0 — the front, not the end. -/
theorem c10_add_block_position (blocks : List Block) (data : BlockData)
    (afterId : Option Nat) (customId : Option Nat) (now : Nat) :
    (handleAIAddBlock blocks data afterId customId now).length = blocks.length + 1
    ∧ (∃ k, k ≤ blocks.length ∧
        handleAIAddBlock blocks data afterId customId now =
          blocks.take k ++ [mkAIBlock data customId now] ++ blocks.drop k)
    ∧ (afterId = none →
        handleAIAddBlock blocks data afterId customId now =
          blocks ++ [mkAIBlock data customId now])
    ∧ (∀ a, afterId = some a → a ≠ 0 → (∀ b ∈ blocks, b.id ≠ a) →
        handleAIAddBlock blocks data afterId customId now =
          mkAIBlock data customId now :: blocks)
    ∧ (∀ a i, afterId = some a → a ≠ 0 → findIndexId blocks a = some i →
        handleAIAddBlock blocks data afterId customId now =
          blocks.take (i + 1) ++ [mkAIBlock data customId now] ++ blocks.drop (i + 1)) := by
  refine ⟨?_, ?_, ?_, ?_, ?_⟩
  · rcases afterId with _ | a
    · simp [handleAIAddBlock]
    · simp only [handleAIAddBlock]
      by_cases ha : a ≠ 0
      · rw [if_pos ha]
        match hfi : findIndexId blocks a with
        | some i => exact insertAt_length _ _ _
        | none => exact insertAt_length _ _ _
      · rw [if_neg ha]
        simp
  · rcases afterId with _ | a
    · exact ⟨blocks.length, le_refl _, by simp [handleAIAddBlock]⟩
    · simp only [handleAIAddBlock]
      by_cases ha : a ≠ 0
      · rw [if_pos ha]
        match hfi : findIndexId blocks a with
        | some i =>
          have hlt := findIndexId_some_lt a blocks i hfi
          exact ⟨i + 1, by omega, insertAt_eq_take_drop _ _ _ (by omega)⟩
        | none =>
          exact ⟨0, Nat.zero_le _, insertAt_eq_take_drop _ _ _ (Nat.zero_le _)⟩
      · rw [if_neg ha]
        exact ⟨blocks.length, le_refl _, by simp⟩
  · intro h
    subst h
    rfl
  · intro a h ha hnone
    subst h
    simp only [handleAIAddBlock]
    rw [if_pos ha, (findIndexId_none a blocks).mpr hnone]
    rfl
  · intro a i h ha hfi
    subst h
    simp only [handleAIAddBlock]
    rw [if_pos ha, hfi]
    have hlt := findIndexId_some_lt a blocks i hfi
    exact insertAt_eq_take_drop _ _ _ (by omega)

/-- Witness for C10: an anchor id matching nothing inserts at the front. -/
theorem c10_add_block_position_witness :
    handleAIAddBlock [{ id := 3, btype := "text" }] { btype := "html" }
        (some 7) none 11
      = mkAIBlock { btype := "html" } none 11 :: [{ id := 3, btype := "text" }] :=
  (c10_add_block_position [{ id := 3, btype := "text" }] { btype := "html" }
      (some 7) none 11).2.2.2.1 7 rfl (by decide) (by
    intro b hb
    simp at hb
    subst hb
    decide)

/-! ## Command registry and executor

`executeTool` and the execution phase of `runAgentWithTools`
(src/src/components/AIChatPanel.jsx, lines 500-638 and 695-752).  The
`blocks` array read by `executeTool` is the panel's prop captured when the
turn began (React state updates do not refresh a running closure), so
index checks and index-to-id resolution use that snapshot, while the
mutation callbacks (`onAddBlock`, `onUpdateBlock`, `onDeleteBlock`) act on
the live collection by id.  `ollamaService.chatStream` inside
`stream_html_block` is an external call, abstracted as an
`Except String String` outcome whose chunk-callback rewriting is applied
to the final accumulated text. -/

/-- The command schema table `TOOLS` (name, parameter name, declared type,
required flag), from AIChatPanel.jsx lines 23-101. -/
def TOOLS : List (String × List (String × String × Bool)) :=
  [("set_lesson_title", [("title", "string", true)]),
   ("set_lesson_icon", [("icon", "string", true)]),
   ("create_block", [("content", "string", true)]),
   ("update_block", [("index", "number", true), ("content", "string", true)]),
   ("delete_block", [("index", "number", true)]),
   ("create_code_block",
     [("code", "string", true), ("language", "string", true),
      ("filename", "string", false)]),
   ("create_react_block", [("code", "string", true)]),
   ("create_mermaid_block", [("code", "string", true)]),
   ("create_math_block", [("code", "string", true)]),
   ("stream_html_block", [("prompt", "string", true), ("style", "string", false)])]

structure DocState where
  title : Option JVal := none
  icon : Option JVal := none
  blocks : List Block := []
  nextId : Nat := 1

structure ToolResult where
  success : Bool
  result : String

/-- `v || d` on JS values. -/
def jsOrV (o : Option JVal) (d : JVal) : JVal :=
  match o with
  | some v => if jsTruthyV v then v else d
  | none => d

/-- `index < 0` under JS numeric comparison (`undefined` and non-numbers
compare false, like NaN). -/
def idxLtZero (o : Option JVal) : Bool :=
  match o with
  | some (.jnum lit) => numLtZero lit
  | _ => false

def digitsToNat (l : List Char) : Nat :=
  l.foldl (fun acc c => acc * 10 + (c.toNat - '0'.toNat)) 0

/-- Integer part of a nonnegative JSON number literal. -/
def numFloorNat (lit : String) : Nat :=
  digitsToNat (lit.data.takeWhile Char.isDigit)

/-- `index >= len` under JS numeric comparison: for a nonnegative number
this is `⌊index⌋ ≥ len`; `undefined` and non-numbers compare false.
(Exponent literals are treated by their mantissa; they never appear as
indexes.) -/
def idxGeLen (o : Option JVal) (n : Nat) : Bool :=
  match o with
  | some (.jnum lit) => if numLtZero lit then false else numFloorNat lit ≥ n
  | _ => false

/-- `blocks[index]`: defined exactly when the value is an integer-valued
in-range number (JS array access at `undefined`, fractional or alien keys
yields `undefined`). -/
def idxElem (o : Option JVal) (blocks : List Block) : Option Block :=
  match o with
  | some (.jnum lit) =>
    match numAsInt lit with
    | some k =>
      if h : 0 ≤ k ∧ k.toNat < blocks.length then some (blocks.get ⟨k.toNat, h.2⟩)
      else none
    | none => none
  | _ => none

/-- `onAddBlock(blockData)`: `handleAIAddBlock` with no anchor and no
custom id, the fresh id drawn from the counter. -/
def docAddBlock (doc : DocState) (data : BlockData) : DocState :=
  { doc with blocks := handleAIAddBlock doc.blocks data none none doc.nextId,
             nextId := doc.nextId + 1 }

/-- Fence stripping pass `/```html?\n?/gi` of `stream_html_block`. -/
def stripFencesHtml : Nat → List Char → List Char
  | 0, l => l
  | _ + 1, [] => []
  | fuel + 1, '`' :: '`' :: '`' :: rest =>
    (match rest with
     | a :: b :: c :: r2 =>
       if a.toLower = 'h' ∧ b.toLower = 't' ∧ c.toLower = 'm' then
         let r3 := match r2 with
           | l1 :: r2t => if l1.toLower = 'l' then r2t else r2
           | [] => r2
         let r4 := match r3 with
           | '\n' :: r3t => r3t
           | _ => r3
         stripFencesHtml fuel r4
       else '`' :: stripFencesHtml fuel ('`' :: '`' :: rest)
     | _ => '`' :: stripFencesHtml fuel ('`' :: '`' :: rest))
  | fuel + 1, c :: rest => c :: stripFencesHtml fuel rest

/-- Fence stripping pass `/```\n?/g`. -/
def stripFencesBare : Nat → List Char → List Char
  | 0, l => l
  | _ + 1, [] => []
  | fuel + 1, '`' :: '`' :: '`' :: rest =>
    (match rest with
     | '\n' :: r2 => stripFencesBare fuel r2
     | _ => stripFencesBare fuel rest)
  | fuel + 1, c :: rest => c :: stripFencesBare fuel rest

def stripCodeFences (l : List Char) : List Char :=
  stripFencesBare l.length (stripFencesHtml l.length l)

/-- `html.match(/<[^>]+[\s\S]*$/)`: from the first `<` that is followed by
a non-`>` character, to the end. -/
def htmlMatchL : List Char → Option (List Char)
  | [] => none
  | c :: rest =>
    if c = '<' then
      match rest with
      | c2 :: _ => if c2 ≠ '>' then some (c :: rest) else htmlMatchL rest
      | [] => none
    else htmlMatchL rest

/-- Content the `stream_html_block` chunk callback leaves in the
placeholder after the final accumulated text `accText` (none: placeholder
kept). -/
def streamedContent (accText : String) : Option JVal :=
  let html := stripCodeFences accText.data
  match htmlMatchL html with
  | some m => some (.jstr (String.mk m))
  | none =>
    if (jsTrimL html).isEmpty then none
    else some (.jstr (String.mk html))

def streamPlaceholder : BlockData :=
  { btype := "html",
    content := some (.jstr "<div style=\"padding: 20px; text-align: center; color: #9ca3af;\">⏳ Generating content...</div>"),
    showPreview := some true }

def streamFailureHtml : JVal :=
  .jstr "<div style=\"padding: 20px; color: #ef4444;\">❌ Failed to generate content</div>"

/-- `executeTool(toolName, parameters)`.  `snap` is the turn-start block
snapshot captured by the closure; `doc` is the live document.  A thrown
exception is an `Except.error` carrying its message (every throwing path
throws before mutating). -/
def executeTool (streamOut : Except String String) (snap : List Block)
    (tool : Option JVal) (params : JVal) (doc : DocState) :
    Except String (DocState × ToolResult) :=
  match tool with
  | some (.jstr name) =>
    if name = "set_lesson_title" then
      let t := objLookup params "title"
      .ok ({ doc with title := t }, ⟨true, "Title: \"" ++ dispOpt t ++ "\""⟩)
    else if name = "set_lesson_icon" then
      let t := objLookup params "icon"
      .ok ({ doc with icon := t }, ⟨true, "Icon: " ++ dispOpt t⟩)
    else if name = "create_block" then
      .ok (docAddBlock doc
          { btype := "html", content := objLookup params "content",
            showPreview := some true },
        ⟨true, "Block created"⟩)
    else if name = "update_block" then
      let idx := objLookup params "index"
      if idxLtZero idx ∨ idxGeLen idx snap.length then
        .ok (doc, ⟨false, "Invalid index: " ++ dispOpt idx⟩)
      else
        match idxElem idx snap with
        | some b =>
          .ok ({ doc with blocks :=
                  updateBlock doc.blocks b.id "content" (objLookup params "content") },
            ⟨true, "Block " ++ dispOpt idx ++ " updated"⟩)
        | none => .error "Cannot read properties of undefined (reading 'id')"
    else if name = "delete_block" then
      let idx := objLookup params "index"
      if idxLtZero idx ∨ idxGeLen idx snap.length then
        .ok (doc, ⟨false, "Invalid index: " ++ dispOpt idx⟩)
      else
        match idxElem idx snap with
        | some b =>
          .ok ({ doc with blocks := deleteBlock doc.blocks b.id doc.nextId,
                          nextId := doc.nextId + 1 },
            ⟨true, "Block " ++ dispOpt idx ++ " deleted" ++
              (if snap.length = 1 then " (canvas reset)" else "")⟩)
        | none => .error "Cannot read properties of undefined (reading 'id')"
    else if name = "create_code_block" then
      .ok (docAddBlock doc
          { btype := "code",
            content := some (jsOrV (objLookup params "code") (.jstr "")),
            language := some (jsOrV (objLookup params "language") (.jstr "javascript")),
            filename := some (jsOrV (objLookup params "filename") (.jstr "")) },
        ⟨true, "Code block created"⟩)
    else if name = "create_react_block" then
      .ok (docAddBlock doc
          { btype := "react",
            content := some (jsOrV (objLookup params "code")
              (.jstr "<Button>Click me!</Button>")) },
        ⟨true, "Interactive React block created"⟩)
    else if name = "create_mermaid_block" then
      .ok (docAddBlock doc
          { btype := "mermaid",
            content := some (jsOrV (objLookup params "code")
              (.jstr "graph TD\n    A[Start] --> B[End]")) },
        ⟨true, "Mermaid diagram block created"⟩)
    else if name = "create_math_block" then
      .ok (docAddBlock doc
          { btype := "math",
            content := some (jsOrV (objLookup params "code") (.jstr "E = mc^2")) },
        ⟨true, "Math formula block created"⟩)
    else if name = "stream_html_block" then
      let blockId := doc.nextId
      let doc1 := { doc with
        blocks := handleAIAddBlock doc.blocks streamPlaceholder none
          (some blockId) blockId,
        nextId := doc.nextId + 1 }
      match streamOut with
      | .ok accText =>
        let doc2 := match streamedContent accText with
          | some v => { doc1 with blocks := updateBlock doc1.blocks blockId "content" (some v) }
          | none => doc1
        .ok (doc2, ⟨true, "Content streamed to canvas"⟩)
      | .error e =>
        .ok ({ doc1 with blocks :=
                updateBlock doc1.blocks blockId "content" (some streamFailureHtml) },
          ⟨false, e⟩)
    else
      .ok (doc, ⟨false, "Unknown tool: " ++ dispOpt tool⟩)
  | _ => .ok (doc, ⟨false, "Unknown tool: " ++ dispOpt tool⟩)

/-- `call.tool`. -/
def callTool (c : JVal) : Option JVal :=
  objLookup c "tool"

/-- `call.params || {}`. -/
def callParams (c : JVal) : JVal :=
  jsOrV (objLookup c "params") (.jobj [])

/-- `parallelizableTools.includes(c.tool)` — the hand-maintained
allow-list of commands that never touch the block collection. -/
def isParallelSafe (c : JVal) : Bool :=
  match callTool c with
  | some (.jstr s) => s = "set_lesson_title" ∨ s = "set_lesson_icon"
  | _ => false

/-- One result entry `{ tool: toolName, ...result }`. -/
structure ToolEntry where
  tool : Option JVal
  success : Bool
  result : String

/-- One call executed under the per-call try/catch: a thrown exception
becomes `{ tool, success: false, result: error.message }` and the document
keeps its pre-throw state. -/
def runToolCall (streamOut : Except String String) (snap : List Block)
    (c : JVal) (doc : DocState) : DocState × ToolEntry :=
  match executeTool streamOut snap (callTool c) (callParams c) doc with
  | .ok (d2, r) => (d2, ⟨callTool c, r.success, r.result⟩)
  | .error e => (doc, ⟨callTool c, false, e⟩)

/-- Calls executed one after another with no cancellation check: the
parallel-safe batch (whose async bodies have no internal await and run in
map order before the joined `Promise.all` resolves) and any uncancelled
run of the sequential loop. -/
def runToolCalls (streamOut : Except String String) (snap : List Block) :
    List JVal → DocState → DocState × List ToolEntry
  | [], doc => (doc, [])
  | c :: rest, doc =>
    let p := runToolCall streamOut snap c doc
    let q := runToolCalls streamOut snap rest p.1
    (q.1, p.2 :: q.2)

/-- The sequential loop of `runAgentWithTools`: before each command the
cancellation signal is consulted (check number `k`); an observed abort
stops the loop, leaving every already-applied command in place. -/
def runSeqToolCalls (streamOut : Except String String) (snap : List Block)
    (sig : Nat → Bool) : List JVal → Nat → DocState → DocState × List ToolEntry
  | [], _, doc => (doc, [])
  | c :: rest, k, doc =>
    if sig k then (doc, [])
    else
      let p := runToolCall streamOut snap c doc
      let q := runSeqToolCalls streamOut snap sig rest (k + 1) p.1
      (q.1, p.2 :: q.2)

/-- The tool-execution phase of `runAgentWithTools` (lines 695-737):
partition the parsed calls into the parallel-safe batch and the
order-dependent rest; run the batch (unless it is empty or the signal is
already aborted — check 0), await it in full, then run the
order-dependent calls one at a time with a check before each (checks
1, 2, …), and return the batch results followed by the sequential
results. -/
def execToolCalls (streamOut : Except String String) (sig : Nat → Bool)
    (toolCalls : List JVal) (doc : DocState) : DocState × List ToolEntry :=
  let snap := doc.blocks
  let parallelCalls := toolCalls.filter isParallelSafe
  let sequentialCalls := toolCalls.filter (fun c => !isParallelSafe c)
  let p :=
    if ¬parallelCalls.isEmpty ∧ ¬sig 0 then runToolCalls streamOut snap parallelCalls doc
    else (doc, [])
  let q := runSeqToolCalls streamOut snap sig sequentialCalls 1 p.1
  (q.1, p.2 ++ q.2)

/-- The never-aborted cancellation signal. -/
def noCancel : Nat → Bool := fun _ => false

lemma runSeq_noCancel (streamOut : Except String String) (snap : List Block) :
    ∀ (l : List JVal) (k : Nat) (doc : DocState),
    runSeqToolCalls streamOut snap noCancel l k doc = runToolCalls streamOut snap l doc := by
  intro l
  induction l with
  | nil => intro k doc; rfl
  | cons c rest ih =>
    intro k doc
    show (if noCancel k then _ else _) = _
    rw [if_neg (by simp [noCancel])]
    dsimp only
    simp only [ih]
    rfl

lemma runToolCalls_tools (streamOut : Except String String) (snap : List Block) :
    ∀ (l : List JVal) (doc : DocState),
    ((runToolCalls streamOut snap l doc).2).map (fun e => e.tool) = l.map callTool := by
  intro l
  induction l with
  | nil => intro doc; rfl
  | cons c rest ih =>
    intro doc
    show ((let p := runToolCall streamOut snap c doc
           let q := runToolCalls streamOut snap rest p.1
           (q.1, p.2 :: q.2)).2).map (fun e => e.tool) = _
    simp only [List.map_cons]
    rw [ih]
    congr 1
    unfold runToolCall
    match executeTool streamOut snap (callTool c) (callParams c) doc with
    | .ok (d2, r) => rfl
    | .error e => rfl

lemma runToolCalls_length (streamOut : Except String String) (snap : List Block) :
    ∀ (l : List JVal) (doc : DocState),
    ((runToolCalls streamOut snap l doc).2).length = l.length := by
  intro l
  induction l with
  | nil => intro doc; rfl
  | cons c rest ih =>
    intro doc
    show ((let p := runToolCall streamOut snap c doc
           let q := runToolCalls streamOut snap rest p.1
           (q.1, p.2 :: q.2)).2).length = _
    simp only [List.length_cons]
    rw [ih]

lemma runToolCalls_append (streamOut : Except String String) (snap : List Block) :
    ∀ (l1 l2 : List JVal) (doc : DocState),
    runToolCalls streamOut snap (l1 ++ l2) doc =
      (let p := runToolCalls streamOut snap l1 doc
       let q := runToolCalls streamOut snap l2 p.1
       (q.1, p.2 ++ q.2)) := by
  intro l1
  induction l1 with
  | nil => intro l2 doc; rfl
  | cons c rest ih =>
    intro l2 doc
    rw [List.cons_append]
    show runToolCalls streamOut snap (c :: (rest ++ l2)) doc = _
    dsimp only [runToolCalls]
    simp only [ih]
    rfl

lemma filter_partition_length (p : JVal → Bool) (l : List JVal) :
    (l.filter p).length + (l.filter (fun c => !p c)).length = l.length := by
  induction l with
  | nil => rfl
  | cons c rest ih =>
    by_cases h : p c <;> simp [List.filter_cons, h, ← ih] <;> omega

/-- C4: with no cancellation, the executor's result list is exactly the
parallel-safe calls' results (in their parsed order) followed by the
order-dependent calls' results (in their parsed relative order), and the
whole parallel-safe batch has been applied to the document before the
first order-dependent call runs. -/
theorem c4_executor_ordering (streamOut : Except String String)
    (toolCalls : List JVal) (doc : DocState) :
    ((execToolCalls streamOut noCancel toolCalls doc).2).map (fun e => e.tool)
      = (toolCalls.filter isParallelSafe).map callTool
        ++ (toolCalls.filter (fun c => !isParallelSafe c)).map callTool
    ∧ execToolCalls streamOut noCancel toolCalls doc =
        (let p := runToolCalls streamOut doc.blocks (toolCalls.filter isParallelSafe) doc
         let q := runToolCalls streamOut doc.blocks
           (toolCalls.filter (fun c => !isParallelSafe c)) p.1
         (q.1, p.2 ++ q.2)) := by
  have hmain : execToolCalls streamOut noCancel toolCalls doc =
      (let p := runToolCalls streamOut doc.blocks (toolCalls.filter isParallelSafe) doc
       let q := runToolCalls streamOut doc.blocks
         (toolCalls.filter (fun c => !isParallelSafe c)) p.1
       (q.1, p.2 ++ q.2)) := by
    unfold execToolCalls
    dsimp only
    by_cases hpar : (toolCalls.filter isParallelSafe).isEmpty
    · rw [if_neg (by simp [hpar])]
      have hnil : toolCalls.filter isParallelSafe = [] := by
        simpa [List.isEmpty_iff] using hpar
      rw [hnil]
      rw [runSeq_noCancel]
      rfl
    · rw [if_pos (by simp [hpar, noCancel])]
      rw [runSeq_noCancel]
  refine ⟨?_, hmain⟩
  rw [hmain]
  show ((runToolCalls streamOut doc.blocks (toolCalls.filter isParallelSafe) doc).2
      ++ _).map (fun e => e.tool) = _
  rw [List.map_append, runToolCalls_tools, runToolCalls_tools]

/-- The sequential loop runs exactly the calls before the first observed
abort: there is an `m` with all checks before it clear, the check at `m`
(if any remains) aborted, and the run equal to an uncancelled run of the
first `m` calls. -/
lemma runSeq_take (streamOut : Except String String) (snap : List Block)
    (sig : Nat → Bool) : ∀ (l : List JVal) (k : Nat) (doc : DocState),
    ∃ m, m ≤ l.length ∧ (∀ j, j < m → sig (k + j) = false)
      ∧ (m < l.length → sig (k + m) = true)
      ∧ runSeqToolCalls streamOut snap sig l k doc =
          runToolCalls streamOut snap (l.take m) doc := by
  intro l
  induction l with
  | nil =>
    intro k doc
    exact ⟨0, le_refl _, by omega, by simp, rfl⟩
  | cons c rest ih =>
    intro k doc
    by_cases hk : sig k
    · refine ⟨0, Nat.zero_le _, by omega, fun _ => by simpa using hk, ?_⟩
      show (if sig k then _ else _) = _
      rw [if_pos hk]
      rfl
    · obtain ⟨m, hm1, hm2, hm3, hm4⟩ :=
        ih (k + 1) (runToolCall streamOut snap c doc).1
      refine ⟨m + 1, by simpa using hm1, ?_, ?_, ?_⟩
      · intro j hj
        match j with
        | 0 => simpa using hk
        | j' + 1 =>
          have := hm2 j' (by omega)
          rw [show k + (j' + 1) = k + 1 + j' by omega]
          exact this
      · intro hlt
        have := hm3 (by simpa using hlt)
        rw [show k + (m + 1) = k + 1 + m by omega]
        exact this
      · show (if sig k then _ else _) = _
        rw [if_neg hk]
        dsimp only
        rw [hm4]
        rw [List.take_succ_cons]
        rfl

/-- C9: once the cancellation signal is observed the executor issues no
further command and undoes nothing — the outcome is exactly an
uncancelled run of the parallel-safe batch (skipped entirely when the
signal was already aborted at check 0) followed by the order-dependent
calls dispatched before the first aborted check. -/
theorem c9_cancellation (streamOut : Except String String) (sig : Nat → Bool)
    (toolCalls : List JVal) (doc : DocState) :
    ∃ m, m ≤ (toolCalls.filter (fun c => !isParallelSafe c)).length
    ∧ (∀ j, j < m → sig (1 + j) = false)
    ∧ (m < (toolCalls.filter (fun c => !isParallelSafe c)).length → sig (1 + m) = true)
    ∧ execToolCalls streamOut sig toolCalls doc =
        (let p := if ¬(toolCalls.filter isParallelSafe).isEmpty ∧ ¬sig 0
                  then runToolCalls streamOut doc.blocks (toolCalls.filter isParallelSafe) doc
                  else (doc, [])
         let q := runToolCalls streamOut doc.blocks
           ((toolCalls.filter (fun c => !isParallelSafe c)).take m) p.1
         (q.1, p.2 ++ q.2)) := by
  obtain ⟨m, hm1, hm2, hm3, hm4⟩ := runSeq_take streamOut doc.blocks sig
    (toolCalls.filter (fun c => !isParallelSafe c)) 1
    (if ¬(toolCalls.filter isParallelSafe).isEmpty ∧ ¬sig 0
     then runToolCalls streamOut doc.blocks (toolCalls.filter isParallelSafe) doc
     else (doc, [])).1
  refine ⟨m, hm1, hm2, hm3, ?_⟩
  unfold execToolCalls
  dsimp only
  rw [hm4]

/-- C6: no command-level failure aborts the turn — an uncancelled run
returns one result per parsed call; a name outside the registry yields a
failed result with an unknown-tool detail; and a handler that throws
yields a failed result carrying the thrown message while every later call
in the list still runs from the unrolled-back document. -/
theorem c6_failure_isolation (streamOut : Except String String) :
    (∀ (toolCalls : List JVal) (doc : DocState),
      ((execToolCalls streamOut noCancel toolCalls doc).2).length = toolCalls.length)
    ∧ (∀ (name : String) (params : JVal) (snap : List Block) (doc : DocState),
      name ∉ ["set_lesson_title", "set_lesson_icon", "create_block",
        "update_block", "delete_block", "create_code_block",
        "create_react_block", "create_mermaid_block", "create_math_block",
        "stream_html_block"] →
      executeTool streamOut snap (some (.jstr name)) params doc =
        .ok (doc, ⟨false, "Unknown tool: " ++ name⟩))
    ∧ (∀ (snap : List Block) (l1 : List JVal) (c : JVal) (l2 : List JVal)
        (doc : DocState) (e : String),
      executeTool streamOut snap (callTool c) (callParams c)
          (runToolCalls streamOut snap l1 doc).1 = .error e →
      runToolCalls streamOut snap (l1 ++ c :: l2) doc =
        (let p := runToolCalls streamOut snap l1 doc
         let q := runToolCalls streamOut snap l2 p.1
         (q.1, p.2 ++ (⟨callTool c, false, e⟩ : ToolEntry) :: q.2))) := by
  refine ⟨?_, ?_, ?_⟩
  · intro toolCalls doc
    have h := (c4_executor_ordering streamOut toolCalls doc).2
    rw [h]
    dsimp only
    rw [List.length_append, runToolCalls_length, runToolCalls_length]
    exact filter_partition_length isParallelSafe toolCalls
  · intro name params snap doc hname
    simp only [List.mem_cons, List.not_mem_nil, or_false, not_or] at hname
    obtain ⟨h1, h2, h3, h4, h5, h6, h7, h8, h9, h10⟩ := hname
    unfold executeTool
    simp only [h1, h2, h3, h4, h5, h6, h7, h8, h9, h10, if_false]
    rfl
  · intro snap l1 c l2 doc e herr
    have hcall : runToolCall streamOut snap c (runToolCalls streamOut snap l1 doc).1
        = ((runToolCalls streamOut snap l1 doc).1,
           (⟨callTool c, false, e⟩ : ToolEntry)) := by
      unfold runToolCall
      rw [herr]
    rw [runToolCalls_append]
    dsimp only [runToolCalls]
    rw [hcall]

def brokenCall : JVal := .jobj [("tool", .jstr "update_block")]

def createCall : JVal :=
  .jobj [("tool", .jstr "create_block"), ("params", .jobj [("content", .jstr "hi")])]

/-- Witness for C6: an unregistered name fails with an unknown-tool
detail, and an `update_block` with no index throws inside its handler yet
the following `create_block` still runs. -/
theorem c6_failure_isolation_witness :
    ("explode_canvas" : String) ∉ ["set_lesson_title", "set_lesson_icon",
      "create_block", "update_block", "delete_block", "create_code_block",
      "create_react_block", "create_mermaid_block", "create_math_block",
      "stream_html_block"]
    ∧ executeTool (.ok "") [] (some (.jstr "explode_canvas")) (.jobj []) {} =
        .ok ({}, ⟨false, "Unknown tool: explode_canvas"⟩)
    ∧ executeTool (.ok "") [] (callTool brokenCall) (callParams brokenCall)
        (runToolCalls (.ok "") [] [] {}).1 =
        .error "Cannot read properties of undefined (reading 'id')"
    ∧ runToolCalls (.ok "") [] ([] ++ brokenCall :: [createCall]) {} =
        (let p := runToolCalls (.ok "") [] [] {}
         let q := runToolCalls (.ok "") [] [createCall] p.1
         (q.1, p.2 ++ (⟨callTool brokenCall, false,
           "Cannot read properties of undefined (reading 'id')"⟩ : ToolEntry) :: q.2)) :=
  ⟨by decide,
   (c6_failure_isolation (.ok "")).2.1 "explode_canvas" (.jobj []) [] {} (by decide),
   by rfl,
   (c6_failure_isolation (.ok "")).2.2 [] [] brokenCall [createCall] {} _ (by rfl)⟩

/-- C5 counterexample: `set_lesson_title` declares `title` required in the
schema table, yet executing it with no parameters reports success — the
title becomes `undefined` and the result is `success: true`, not a failed
`CommandResult`. -/
theorem c5_validation_counterexample :
    ("set_lesson_title", [("title", "string", true)]) ∈ TOOLS
    ∧ executeTool (.ok "") [] (some (.jstr "set_lesson_title")) (.jobj []) {} =
        .ok ({ title := none }, ⟨true, "Title: \"undefined\""⟩) :=
  ⟨by decide, by rfl⟩

/-- C5 amended: only the block-index commands validate, and only their
index: `update_block` and `delete_block` surface an out-of-range index as
`success: false` with an invalid-index detail (leaving the document
unchanged), while the other commands do not check their schema-required
parameters — `set_lesson_title` with a missing `title` succeeds, setting
the title to `undefined`. -/
theorem c5_validation_amended (streamOut : Except String String)
    (snap : List Block) (params : JVal) (doc : DocState) :
    (idxLtZero (objLookup params "index")
        ∨ idxGeLen (objLookup params "index") snap.length →
      executeTool streamOut snap (some (.jstr "update_block")) params doc =
        .ok (doc, ⟨false, "Invalid index: " ++ dispOpt (objLookup params "index")⟩))
    ∧ (idxLtZero (objLookup params "index")
        ∨ idxGeLen (objLookup params "index") snap.length →
      executeTool streamOut snap (some (.jstr "delete_block")) params doc =
        .ok (doc, ⟨false, "Invalid index: " ++ dispOpt (objLookup params "index")⟩))
    ∧ (objLookup params "title" = none →
      executeTool streamOut snap (some (.jstr "set_lesson_title")) params doc =
        .ok ({ doc with title := none }, ⟨true, "Title: \"undefined\""⟩)) := by
  refine ⟨?_, ?_, ?_⟩
  · intro h
    have hred : executeTool streamOut snap (some (.jstr "update_block")) params doc =
        (if idxLtZero (objLookup params "index")
            ∨ idxGeLen (objLookup params "index") snap.length then
          Except.ok (doc, ⟨false, "Invalid index: " ++ dispOpt (objLookup params "index")⟩)
        else match idxElem (objLookup params "index") snap with
          | some b => Except.ok ({ doc with blocks := updateBlock doc.blocks b.id "content" (objLookup params "content") }, ⟨true, "Block " ++ dispOpt (objLookup params "index") ++ " updated"⟩)
          | none => Except.error "Cannot read properties of undefined (reading 'id')") := rfl
    rw [hred, if_pos h]
  · intro h
    have hred : executeTool streamOut snap (some (.jstr "delete_block")) params doc =
        (if idxLtZero (objLookup params "index")
            ∨ idxGeLen (objLookup params "index") snap.length then
          Except.ok (doc, ⟨false, "Invalid index: " ++ dispOpt (objLookup params "index")⟩)
        else match idxElem (objLookup params "index") snap with
          | some b => Except.ok ({ doc with blocks := deleteBlock doc.blocks b.id doc.nextId, nextId := doc.nextId + 1 }, ⟨true, "Block " ++ dispOpt (objLookup params "index") ++ " deleted" ++ (if snap.length = 1 then " (canvas reset)" else "")⟩)
          | none => Except.error "Cannot read properties of undefined (reading 'id')") := rfl
    rw [hred, if_pos h]
  · intro h
    have hred : executeTool streamOut snap (some (.jstr "set_lesson_title")) params doc =
        Except.ok ({ doc with title := objLookup params "title" },
          ⟨true, "Title: \"" ++ dispOpt (objLookup params "title") ++ "\""⟩) := rfl
    rw [hred, h]
    rfl

/-- Witness for the amended C5: index 5 on an empty canvas is rejected by
both index commands; a title-less `set_lesson_title` still succeeds. -/
theorem c5_validation_amended_witness :
    (idxLtZero (objLookup (.jobj [("index", .jnum "5")]) "index")
      ∨ idxGeLen (objLookup (.jobj [("index", .jnum "5")]) "index") ([] : List Block).length)
    ∧ executeTool (.ok "") [] (some (.jstr "update_block"))
        (.jobj [("index", .jnum "5")]) {} =
        .ok ({}, ⟨false, "Invalid index: " ++
          dispOpt (objLookup (.jobj [("index", .jnum "5")]) "index")⟩)
    ∧ executeTool (.ok "") [] (some (.jstr "set_lesson_title")) (.jobj []) {} =
        .ok ({ title := none }, ⟨true, "Title: \"undefined\""⟩) :=
  ⟨by decide,
   (c5_validation_amended (.ok "") [] (.jobj [("index", .jnum "5")]) {}).1 (by decide),
   by
    have h := (c5_validation_amended (.ok "") [] (.jobj []) {}).2.2 (by rfl)
    exact h⟩

/-! ## Command parser

`parseToolCalls` (src/src/components/AIChatPanel.jsx, lines 214-290):
fenced payload, then raw balanced payload, then trailing-comma repair,
then the whole text as a plain message.  Each strategy's try/catch
(`JSON.parse` failure falls through to the next strategy) is an `Option`;
the outer catch is unreachable since nothing else in the body throws. -/

structure ParsedCalls where
  thought : Option JVal
  toolCalls : List JVal
  message : String
  raw : String

/-- `parsed.thought || null`. -/
def thOr (o : Option JVal) : Option JVal :=
  if jsTruthy o then o else none

/-- `Array.isArray(parsed.tool_calls) ? parsed.tool_calls : []`. -/
def tcOf (o : Option JVal) : List JVal :=
  match o with
  | some (.jarr xs) => xs
  | _ => []

/-- `parsed.message || 'Done'` (as display text). -/
def msgOr (o : Option JVal) : String :=
  if jsTruthy o then dispOpt o else "Done"

def parsedOf (v : JVal) (raw : String) : ParsedCalls :=
  ⟨thOr (objLookup v "thought"), tcOf (objLookup v "tool_calls"),
   msgOr (objLookup v "message"), raw⟩

/-- Position just after the first triple-backtick fence. -/
def afterFence : List Char → Option (List Char)
  | [] => none
  | '`' :: '`' :: '`' :: rest => some rest
  | _ :: rest => afterFence rest

/-- The optional literal `json` tag of the fence marker. -/
def dropJsonTag (l : List Char) : List Char :=
  match l with
  | 'j' :: 's' :: 'o' :: 'n' :: rest => rest
  | _ => l

/-- Shortest run of characters up to the next closing fence. -/
def upToFence : List Char → Option (List Char)
  | [] => none
  | '`' :: '`' :: '`' :: _ => some []
  | c :: rest => (upToFence rest).map (c :: ·)

/-- Group 1 of `/```(?:json)?\s*([\s\S]*?)```/`: the interior of the first
closed fence (an optional `json` tag and leading whitespace stripped). -/
def extractFenced (l : List Char) : Option (List Char) :=
  (afterFence l).bind (fun after =>
    upToFence ((dropJsonTag after).dropWhile Char.isWhitespace))

/-- Strategy 1: extract from a fenced block, trim, balance, parse. -/
def fencedStrategy (response : String) : Option ParsedCalls :=
  match extractFenced response.data with
  | some interior =>
    match findBalancedJsonL (jsTrimL interior) with
    | some jsonStr => (jsonParseL jsonStr).map (fun v => parsedOf v response)
    | none => none
  | none => none

/-- Strategy 2: balanced payload of the raw full text, parsed. -/
def rawStrategy (response : String) : Option ParsedCalls :=
  (findBalancedJsonL response.data).bind (fun bj =>
    (jsonParseL bj).map (fun v => parsedOf v response))

/-- `/,\s*}/g` → `}` (leftmost, non-overlapping). -/
def stripCommaClose : Nat → List Char → List Char
  | 0, l => l
  | _ + 1, [] => []
  | fuel + 1, ',' :: rest =>
    (match rest.dropWhile Char.isWhitespace with
     | '}' :: r2 => '}' :: stripCommaClose fuel r2
     | _ => ',' :: stripCommaClose fuel rest)
  | fuel + 1, c :: rest => c :: stripCommaClose fuel rest

/-- `/,\s*]/g` → `]` (leftmost, non-overlapping). -/
def stripCommaBracket : Nat → List Char → List Char
  | 0, l => l
  | _ + 1, [] => []
  | fuel + 1, ',' :: rest =>
    (match rest.dropWhile Char.isWhitespace with
     | ']' :: r2 => ']' :: stripCommaBracket fuel r2
     | _ => ',' :: stripCommaBracket fuel rest)
  | fuel + 1, c :: rest => c :: stripCommaBracket fuel rest

/-- The lenient repair pass stripping trailing commas before `}` and `]`. -/
def stripTrailingCommas (l : List Char) : List Char :=
  let pass1 := stripCommaClose l.length l
  stripCommaBracket pass1.length pass1

/-- Strategy 3: the raw balanced payload after trailing-comma repair. -/
def repairStrategy (response : String) : Option ParsedCalls :=
  (findBalancedJsonL response.data).bind (fun bj =>
    (jsonParseL (stripTrailingCommas bj)).map (fun v => parsedOf v response))

/-- `parseToolCalls(response)`: the strategies in order, else the whole
text as the display message with zero commands; a falsy (empty) response
short-circuits to the fixed message `No response`. -/
def parseToolCalls (response : String) : ParsedCalls :=
  if response = "" then ⟨none, [], "No response", response⟩
  else
    match fencedStrategy response with
    | some p => p
    | none =>
      match rawStrategy response with
      | some p => p
      | none =>
        match repairStrategy response with
        | some p => p
        | none => ⟨none, [], response, response⟩

set_option maxRecDepth 4000 in
example : parseToolCalls "Sure!\n```json\n\x7b\"tool_calls\":[],\"message\":\"ok\",\x7d\n```" =
    ⟨none, [], "ok", "Sure!\n```json\n\x7b\"tool_calls\":[],\"message\":\"ok\",\x7d\n```"⟩ := by
  rfl

/-- C7 counterexample: the empty response also defeats every strategy,
but the parser replies with the fixed message `No response`, not with the
original text verbatim. -/
theorem c7_parser_fallback_counterexample :
    parseToolCalls "" = ⟨none, [], "No response", ""⟩
    ∧ ("No response" : String) ≠ "" :=
  ⟨rfl, by decide⟩

/-- C7 amended: for every nonempty response on which the fenced, raw
balanced and trailing-comma-repair strategies all fail, the parser
returns — without raising — the entire original text verbatim as
the display message, with no thought and an empty command list. -/
theorem c7_parser_fallback (response : String) (h0 : response ≠ "")
    (h1 : fencedStrategy response = none) (h2 : rawStrategy response = none)
    (h3 : repairStrategy response = none) :
    parseToolCalls response = ⟨none, [], response, response⟩ := by
  unfold parseToolCalls
  rw [if_neg h0, h1, h2, h3]

/-- Witness for the amended C7: a plain conversational reply. -/
theorem c7_parser_fallback_witness :
    ("hello there" : String) ≠ ""
    ∧ parseToolCalls "hello there" =
        ⟨none, [], "hello there", "hello there"⟩ :=
  ⟨by decide, c7_parser_fallback "hello there" (by decide) (by rfl) (by rfl) (by rfl)⟩

/-! ## Progress reconciler

`throttledProgressUpdate` (src/unnamed/part_002, lines 739-765), with
`THROTTLE_MS = 300`, `lastProgressUpdateRef` starting at 0 and one pending
timer slot.  Time is `Nat` milliseconds; a due timer fires before any
event at or after its fire time (the event-loop serialization), and a
deferred update scheduled at `t` fires at `last + 300`
(`t + (300 - (t - last))`).  Visible updates (the `setMessages` calls) are
recorded with their times. -/

def THROTTLE_MS : Nat := 300

structure ThrState where
  last : Nat
  pending : Option (Nat × String)
  ups : List (Nat × String)

def thrInit : ThrState :=
  ⟨0, none, []⟩

/-- Fire the pending timer if it is due at time `t`. -/
def fireDue (t : Nat) (s : ThrState) : ThrState :=
  match s.pending with
  | some (ft, c) =>
    if ft ≤ t then ⟨ft, none, s.ups ++ [(ft, c)]⟩ else s
  | none => s

/-- One progress event `(t, c)`: apply immediately when at least 300 ms
have passed since the last visible update, else (re)schedule the deferred
update — carrying this latest value — for `last + 300`. -/
def onEvent (s : ThrState) (t : Nat) (c : String) : ThrState :=
  let s1 := fireDue t s
  if s1.last + THROTTLE_MS ≤ t then
    { s1 with last := t, ups := s1.ups ++ [(t, c)] }
  else
    { s1 with pending := some (s1.last + THROTTLE_MS, c) }

def runEvents (evs : List (Nat × String)) (s : ThrState) : ThrState :=
  evs.foldl (fun s e => onEvent s e.1 e.2) s

/-- End of stream: any still-pending deferred update eventually fires. -/
def flushEnd (s : ThrState) : ThrState :=
  match s.pending with
  | some (ft, c) => ⟨ft, none, s.ups ++ [(ft, c)]⟩
  | none => s

/-- The throttle invariant: a pending timer is always set for exactly
300 ms after the last visible update, updates are at least 300 ms apart,
and `last` is the time of the latest visible update (when there is one). -/
def ThrInv (s : ThrState) : Prop :=
  (∀ ft c, s.pending = some (ft, c) → ft = s.last + THROTTLE_MS)
  ∧ List.Chain' (fun u v => u.1 + THROTTLE_MS ≤ v.1) s.ups
  ∧ (∀ u, s.ups.getLast? = some u → u.1 = s.last)

lemma chain_append_singleton {α : Type} (R : α → α → Prop) (l : List α) (x : α)
    (hl : List.Chain' R l) (hx : ∀ u, l.getLast? = some u → R u x) :
    List.Chain' R (l ++ [x]) := by
  apply List.Chain'.append hl (List.chain'_singleton x)
  intro u hu v hv
  simp at hv
  subst hv
  exact hx u hu

lemma fireDue_of_none (t : Nat) (s : ThrState) (hp : s.pending = none) :
    fireDue t s = s := by
  unfold fireDue
  rw [hp]

lemma fireDue_of_due (t : Nat) (s : ThrState) (ft : Nat) (c : String)
    (hp : s.pending = some (ft, c)) (hle : ft ≤ t) :
    fireDue t s = ⟨ft, none, s.ups ++ [(ft, c)]⟩ := by
  unfold fireDue
  rw [hp]
  exact if_pos hle

lemma fireDue_of_not_due (t : Nat) (s : ThrState) (ft : Nat) (c : String)
    (hp : s.pending = some (ft, c)) (hle : ¬ ft ≤ t) :
    fireDue t s = s := by
  unfold fireDue
  rw [hp]
  exact if_neg hle

lemma thrInv_fireDue (t : Nat) (s : ThrState) (h : ThrInv s) :
    ThrInv (fireDue t s) := by
  obtain ⟨h1, h2, h3⟩ := h
  match hp : s.pending with
  | none =>
    rw [fireDue_of_none t s hp]
    exact ⟨h1, h2, h3⟩
  | some (ft, c) =>
    by_cases hle : ft ≤ t
    · rw [fireDue_of_due t s ft c hp hle]
      refine ⟨by simp, ?_, ?_⟩
      · apply chain_append_singleton _ _ _ h2
        intro u hu
        have := h3 u hu
        have hft := h1 ft c hp
        simp only
        omega
      · intro u hu
        simp at hu
        simp [← hu]
    · rw [fireDue_of_not_due t s ft c hp hle]
      exact ⟨h1, h2, h3⟩

/-- After firing due timers, a timer still pending is not yet due, so the
immediate branch can only be taken with no timer pending. -/
lemma fireDue_pending_not_due (t : Nat) (s : ThrState) (h : ThrInv s)
    (hbranch : (fireDue t s).last + THROTTLE_MS ≤ t) :
    (fireDue t s).pending = none := by
  match hp : s.pending with
  | none =>
    rw [fireDue_of_none t s hp] at hbranch ⊢
    by_contra hne
    obtain ⟨⟨ft, c⟩, hft⟩ := Option.ne_none_iff_exists'.mp hne
    rw [hp] at hft
    exact absurd hft (by simp)
  | some (ft, c) =>
    have hfteq := h.1 ft c hp
    by_cases hle : ft ≤ t
    · rw [fireDue_of_due t s ft c hp hle]
    · exfalso
      rw [fireDue_of_not_due t s ft c hp hle] at hbranch
      omega

lemma thrInv_onEvent (s : ThrState) (t : Nat) (c : String) (h : ThrInv s) :
    ThrInv (onEvent s t c) := by
  have hf := thrInv_fireDue t s h
  obtain ⟨f1, f2, f3⟩ := hf
  unfold onEvent
  by_cases hb : (fireDue t s).last + THROTTLE_MS ≤ t
  · rw [if_pos hb]
    have hnone := fireDue_pending_not_due t s h hb
    refine ⟨?_, ?_, ?_⟩
    · intro ft c2 hp
      simp only [hnone] at hp
      exact absurd hp (by simp)
    · apply chain_append_singleton _ _ _ f2
      intro u hu
      have := f3 u hu
      simp only
      omega
    · intro u hu
      simp at hu
      simp [← hu]
  · rw [if_neg hb]
    refine ⟨?_, f2, f3⟩
    intro ft c2 hp
    simp at hp
    exact hp.1.symm

lemma thrInv_runEvents (evs : List (Nat × String)) :
    ∀ s, ThrInv s → ThrInv (runEvents evs s) := by
  induction evs with
  | nil => intro s h; exact h
  | cons e rest ih =>
    intro s h
    exact ih _ (thrInv_onEvent s e.1 e.2 h)

lemma thrInv_flushEnd (s : ThrState) (h : ThrInv s) : ThrInv (flushEnd s) := by
  obtain ⟨h1, h2, h3⟩ := h
  match hp : s.pending with
  | none =>
    have he : flushEnd s = s := by unfold flushEnd; rw [hp]
    rw [he]
    exact ⟨h1, h2, h3⟩
  | some (ft, c) =>
    have he : flushEnd s = ⟨ft, none, s.ups ++ [(ft, c)]⟩ := by
      unfold flushEnd; rw [hp]
    rw [he]
    refine ⟨by simp, ?_, ?_⟩
    · apply chain_append_singleton _ _ _ h2
      intro u hu
      have := h3 u hu
      have := h1 ft c hp
      simp only
      omega
    · intro u hu
      simp at hu
      simp [← hu]

/-- After the last event (and the final flush), the most recent event's
value is the last visible update — the latest value is never dropped. -/
lemma final_value (evs : List (Nat × String)) :
    ∀ (s : ThrState) (t : Nat) (c : String), ThrInv s →
    evs.getLast? = some (t, c) →
    ∃ tl, (flushEnd (runEvents evs s)).ups.getLast? = some (tl, c) := by
  induction evs with
  | nil => intro s t c _ h; simp at h
  | cons e rest ih =>
    intro s t c hinv hlast
    cases rest with
    | nil =>
      simp at hlast
      subst hlast
      have hrun : runEvents [(t, c)] s = onEvent s t c := rfl
      rw [hrun]
      unfold onEvent
      dsimp only
      by_cases hb : (fireDue t s).last + THROTTLE_MS ≤ t
      · rw [if_pos hb]
        have hnone := fireDue_pending_not_due t s hinv hb
        refine ⟨t, ?_⟩
        unfold flushEnd
        dsimp only
        rw [hnone]
        simp
      · rw [if_neg hb]
        refine ⟨(fireDue t s).last + THROTTLE_MS, ?_⟩
        unfold flushEnd
        dsimp only
        simp
    | cons e2 rest2 =>
      have hlast2 : (e2 :: rest2).getLast? = some (t, c) := by
        rw [← hlast]
        exact (getLast?_cons_of_ne_nil e (by simp)).symm
      have hrun : runEvents (e :: e2 :: rest2) s =
          runEvents (e2 :: rest2) (onEvent s e.1 e.2) := rfl
      rw [hrun]
      exact ih (onEvent s e.1 e.2) t c (thrInv_onEvent s e.1 e.2 hinv) hlast2

lemma thrInv_init : ThrInv thrInit := by
  refine ⟨?_, ?_, ?_⟩
  · intro ft c h
    simp [thrInit] at h
  · simp [thrInit]
  · intro u h
    simp [thrInit] at h

/-- C8: the progress reconciler's visible updates are always at least
300 ms apart (equivalently: never two inside one 300 ms window); the most
recent event's value is eventually the last visible update; an event at
least 300 ms after the last visible update applies immediately; and an
earlier event only replaces the single deferred slot — scheduled for
exactly 300 ms after the last visible update and carrying this latest
value — without touching the visible updates. -/
theorem c8_throttle (evs : List (Nat × String)) :
    List.Chain' (fun u v => u.1 + THROTTLE_MS ≤ v.1)
      (flushEnd (runEvents evs thrInit)).ups
    ∧ (∀ t c, evs.getLast? = some (t, c) →
        ∃ tl, (flushEnd (runEvents evs thrInit)).ups.getLast? = some (tl, c))
    ∧ (∀ (s : ThrState) (t : Nat) (c : String),
        (fireDue t s).last + THROTTLE_MS ≤ t →
        (onEvent s t c).ups = (fireDue t s).ups ++ [(t, c)]
        ∧ (onEvent s t c).last = t)
    ∧ (∀ (s : ThrState) (t : Nat) (c : String),
        ¬ (fireDue t s).last + THROTTLE_MS ≤ t →
        (onEvent s t c).pending = some ((fireDue t s).last + THROTTLE_MS, c)
        ∧ (onEvent s t c).ups = (fireDue t s).ups) := by
  refine ⟨?_, ?_, ?_, ?_⟩
  · exact (thrInv_flushEnd _ (thrInv_runEvents evs thrInit thrInv_init)).2.1
  · intro t c h
    exact final_value evs thrInit t c thrInv_init h
  · intro s t c hb
    unfold onEvent
    rw [if_pos hb]
    exact ⟨rfl, rfl⟩
  · intro s t c hb
    unfold onEvent
    rw [if_neg hb]
    exact ⟨rfl, rfl⟩

/-- Witness for C8 on a concrete burst: an immediate update, a deferred
one replacing nothing, its fire, and a final immediate update — all gaps
at least 300 ms and the final value visible. -/
theorem c8_throttle_witness :
    List.Chain' (fun u v => u.1 + THROTTLE_MS ≤ v.1)
      (flushEnd (runEvents [(1000, "a"), (1100, "b"), (1600, "c")] thrInit)).ups
    ∧ ∃ tl, (flushEnd (runEvents [(1000, "a"), (1100, "b"), (1600, "c")]
        thrInit)).ups.getLast? = some (tl, "c") :=
  ⟨(c8_throttle [(1000, "a"), (1100, "b"), (1600, "c")]).1,
   (c8_throttle [(1000, "a"), (1100, "b"), (1600, "c")]).2.1 1600 "c" (by rfl)⟩
